import Mathlib

/-!
Verification of the swiss-cheese hooks (gate_check.py, session_start.py).

Shallow embedding: each Python function relevant to the specification is
translated into an executable Lean definition, and the specification's
claims are proved (or refuted) as theorems about those definitions.

Conventions used throughout:
* Python strings are Lean `String`s; Python `dict.get(k, default)` over a
  JSON-like object is modelled with `Option` fields and `Option.getD`.
* Python string-keyed dictionaries built by mutation are modelled either as
  functions (`String → _`, updated pointwise) or as association lists,
  matching the access pattern of the source.
* Python exceptions (`ValueError`) are modelled with `Except`.
-/

namespace SwissCheese

/-! ## gate_check.py -/

/-- One entry of the `layers` mapping of `validation_report.json`.
Each key may be absent (Python reads them with `dict.get` and a default). -/
structure LayerData where
  status : Option String
  message : Option String
  output : Option String
deriving DecidableEq

/-- Parsed validation report (`ValidationReport` dataclass).
The `coverage` / `tests` / `traceability` blocks are opaque to every
function verified here and are omitted from the embedding. The `layers`
dict is modelled as a function from layer name to an optional entry. -/
structure ValidationReport where
  git_hash : String
  git_hash_short : String
  timestamp : String
  layers : String → Option LayerData

/-- `StalenessResult` frozen dataclass. -/
structure StalenessResult where
  is_stale : Bool
  report_hash : String
  current_hash : String
deriving DecidableEq

/-- `LAYERS` table: layer number, layer name, make target.  The Python dict
has keys 1..4; `sorted(LAYERS.keys())` enumerates them in this order. -/
def LAYERS : List (Nat × String × String) :=
  [(1, "requirements", "validate-requirements"),
   (2, "tdd", "validate-tdd"),
   (3, "implementation", "validate-implementation"),
   (4, "verify", "validate-verify")]

/-- Python `s[:7]`: the first (at most) 7 characters of a string. -/
def pySlice7 (s : String) : String := String.mk (s.data.take 7)

/-- `check_staleness(report_hash, current_hash)`: truncate both hashes to 7
characters (`s[:7] if s else ""`), stale iff both truncations are non-empty
and differ. -/
def check_staleness (report_hash current_hash : String) : StalenessResult :=
  let report_short := if report_hash ≠ "" then pySlice7 report_hash else ""
  let current_short := if current_hash ≠ "" then pySlice7 current_hash else ""
  let is_stale := report_short != "" && current_short != "" && report_short != current_short
  ⟨is_stale, report_short, current_short⟩

/-- Python `a or b` on strings: empty string is falsy. -/
def pyOrStr (a b : String) : String := if a == "" then b else a

/-- The loop body of `get_first_failing_layer`, iterating over the `LAYERS`
table in ascending key order. `layer_data = report.layers.get(name, {})`,
`status = layer_data.get("status", "NOT_RUN")`; the first layer whose status
is exactly `"FAIL"` is returned with `message or output or "Gate failed"`. -/
def firstFailingAux (report : ValidationReport) :
    List (Nat × String × String) → Option (Nat × String × String)
  | [] => none
  | (layer_num, layer_name, _target) :: rest =>
    let layer_data := (report.layers layer_name).getD ⟨none, none, none⟩
    let status := layer_data.status.getD "NOT_RUN"
    if status == "FAIL" then
      let message := layer_data.message.getD ""
      let output := layer_data.output.getD ""
      some (layer_num, layer_name, pyOrStr message (pyOrStr output "Gate failed"))
    else firstFailingAux report rest

/-- `get_first_failing_layer(report)`. -/
def get_first_failing_layer (report : ValidationReport) :
    Option (Nat × String × String) :=
  firstFailingAux report LAYERS

/-- Status recorded for layer name `name` in the report, with the defaults
the Python code applies (`{}` for a missing layer, `"NOT_RUN"` for a missing
status key). -/
def layerStatus (report : ValidationReport) (name : String) : String :=
  (((report.layers name).getD ⟨none, none, none⟩).status).getD "NOT_RUN"

/-- The example report of the specification:
requirements PASS, tdd FAIL, implementation NOT_RUN, verify FAIL. -/
def exampleReport : ValidationReport where
  git_hash := "abc1234deadbeef"
  git_hash_short := "abc1234"
  timestamp := "2024-01-01T00:00:00"
  layers := fun name =>
    if name = "requirements" then some ⟨some "PASS", none, none⟩
    else if name = "tdd" then some ⟨some "FAIL", none, none⟩
    else if name = "implementation" then some ⟨some "NOT_RUN", none, none⟩
    else if name = "verify" then some ⟨some "FAIL", none, none⟩
    else none

/-- A second example report: no layer recorded except `verify`, which fails
with a message.  Missing layers are skipped and do not block the later
failure. -/
def exampleReport2 : ValidationReport where
  git_hash := ""
  git_hash_short := ""
  timestamp := ""
  layers := fun name =>
    if name = "verify" then some ⟨some "FAIL", some "boom", none⟩ else none

/-! ## session_start.py: task graph model -/

/-- `Project` dataclass. -/
structure Project where
  name : String
  description : String
  worktree_base : String
deriving DecidableEq

/-- `Task` dataclass (fields only; `__post_init__` is modelled by
`mkTask`). -/
structure Task where
  id : String
  title : String
  acceptance : String
  status : String
  deps : List String
  spec_file : Option String
  worktree : Option String
deriving DecidableEq

/-- `Task.__post_init__`: dataclass construction runs the validation checks
in order and raises `ValueError` (modelled with `Except.error`) on the
first violated one. -/
def mkTask (id title acceptance status : String) (deps : List String)
    (spec_file worktree : Option String) : Except String Task :=
  if id = "" then .error "Task must have an id"
  else if title = "" then .error ("Task " ++ id ++ " must have a title")
  else if acceptance = "" then .error ("Task " ++ id ++ " must have acceptance criteria")
  else if !(["pending", "in_progress", "complete"].contains status) then
    .error ("Task " ++ id ++ " has invalid status: " ++ status)
  else .ok ⟨id, title, acceptance, status, deps, spec_file, worktree⟩

/-- `TaskSpec` dataclass (fields only; `__post_init__` is modelled by
`mkTaskSpec`). -/
structure TaskSpec where
  version : Int
  status : String
  project : Project
  tasks : List Task
deriving DecidableEq

/-- `TaskSpec.__post_init__`: checks the version, the spec status, and that
every dependency of every task references an existing task id (first
violation raises, modelled with `Except.error`).  No other check is
performed. -/
def mkTaskSpec (version : Int) (status : String) (project : Project)
    (tasks : List Task) : Except String TaskSpec :=
  if version ≠ 1 then .error "Unsupported spec version"
  else if !(["draft", "needs_review", "ready_for_implementation"].contains status) then
    .error ("Invalid spec status: " ++ status)
  else
    let task_ids := tasks.map (·.id)
    match tasks.findSome? (fun t => t.deps.findSome? (fun d =>
        if task_ids.contains d then none
        else some ("Task " ++ t.id ++ " depends on unknown task: " ++ d))) with
    | some msg => .error msg
    | none => .ok ⟨version, status, project, tasks⟩

/-- Two distinct tasks sharing the id `"a"`. -/
def dupTaskA : Task :=
  ⟨"a", "first task", "done when first", "pending", [], none, none⟩

/-- Second task with the same id as `dupTaskA` but different content. -/
def dupTaskB : Task :=
  ⟨"a", "second task", "done when second", "pending", [], none, none⟩

/-- A throwaway project record for examples. -/
def exampleProject : Project := ⟨"demo", "", ".worktrees"⟩

/-! ## session_start.py: session state model

`SessionState` is persisted as JSON.  The JSON object is modelled by
`SessionDict` with one `Option` field per key (`none` = key absent, as
tolerated by `from_dict`'s `dict.get` defaults); `json.dump` followed by
`json.load` is the identity on this representation.  Python `str(k)` /
`int(k)` on the integer keys of `layer_results` are modelled by
`pyStr` / `pyInt` below. -/

/-- Little-endian decimal digits of a natural number (empty for 0). -/
def natDigitsLE : Nat → List Nat
  | 0 => []
  | n + 1 => ((n + 1) % 10) :: natDigitsLE ((n + 1) / 10)
decreasing_by exact Nat.div_lt_self (Nat.succ_pos n) (by norm_num)

/-- The ASCII character of a decimal digit. -/
def digitChar (d : Nat) : Char := Char.ofNat (48 + d)

/-- The decimal value of an ASCII digit character. -/
def digitVal (c : Char) : Nat := c.toNat - 48

/-- Python `str(n)` for a natural number. -/
def pyStrNat (n : Nat) : String :=
  if n = 0 then "0" else String.mk (((natDigitsLE n).reverse).map digitChar)

/-- Python `str(i)` for an integer: optional minus sign, then decimal
digits. -/
def pyStr (i : Int) : String :=
  if i < 0 then "-" ++ pyStrNat i.natAbs else pyStrNat i.natAbs

/-- Accumulator loop of decimal parsing. -/
def parseNatChars : Nat → List Char → Nat
  | acc, [] => acc
  | acc, c :: cs => parseNatChars (acc * 10 + digitVal c) cs

/-- Python `int(s)` restricted to the strings `str(k)` produces: an
optional leading minus sign followed by decimal digits. -/
def pyInt (s : String) : Int :=
  match s.data with
  | [] => 0
  | c :: cs =>
    if c = '-' then -(parseNatChars 0 cs : Int) else (parseNatChars 0 (c :: cs) : Int)

/-- `SessionState` dataclass. `layer_results` is a Python
`dict[int, str]`, modelled as an insertion-ordered association list. -/
structure SessionState where
  version : Int
  loop_active : Bool
  loop_paused : Bool
  current_layer : Int
  layer_results : List (Int × String)
  last_updated : String
deriving DecidableEq

/-- The JSON object stored in `state.json`; `none` marks an absent key. -/
structure SessionDict where
  version : Option Int
  loop_active : Option Bool
  loop_paused : Option Bool
  current_layer : Option Int
  layer_results : Option (List (String × String))
  last_updated : Option String
deriving DecidableEq

/-- `SessionState.from_dict`: every field defaults when its key is absent;
`layer_results` keys are parsed back from strings with `int(k)`. -/
def SessionState.from_dict (d : SessionDict) : SessionState where
  version := d.version.getD 1
  loop_active := d.loop_active.getD false
  loop_paused := d.loop_paused.getD false
  current_layer := d.current_layer.getD 0
  layer_results := (d.layer_results.getD []).map (fun p => (pyInt p.1, p.2))
  last_updated := d.last_updated.getD ""

/-- `SessionState.to_dict`: every field is written; `layer_results` keys
are stringified with `str(k)`. -/
def SessionState.to_dict (s : SessionState) : SessionDict where
  version := some s.version
  loop_active := some s.loop_active
  loop_paused := some s.loop_paused
  current_layer := some s.current_layer
  layer_results := some (s.layer_results.map (fun p => (pyStr p.1, p.2)))
  last_updated := some s.last_updated

/-- The filesystem as `save_state` / `load_state` observe it: whether the
`.swiss-cheese` directory exists, the content of the canonical
`state.json` (absent or a parsed JSON object), and the content of the
temporary file of the current save (absent, created-but-empty, or fully
written). -/
structure FSState where
  dirExists : Bool
  canonical : Option SessionDict
  temp : Option (Option SessionDict)
deriving DecidableEq

/-- Failure injection for `save_state`: which I/O operation (if any)
raises `OSError`.  `success` means every operation succeeds. -/
inductive SaveEvent where
  | mkdirErr
  | mkstempErr
  | writeErr
  | renameErr
  | success
deriving DecidableEq

/-- `save_state(project_dir, state)`.  The wall clock is passed explicitly
as `now`; the returned `SessionState` is the (mutated) argument.  Control
flow follows the source: the timestamp is updated before the `try` block;
`mkdir` / `mkstemp` failures are caught by the outer `except OSError`
before a temp file exists; a failure while writing or renaming unlinks the
temp file, re-raises, and is caught by the outer handler; on success the
temp file is atomically renamed over the canonical path. -/
def save_state (ev : SaveEvent) (now : String) (state : SessionState)
    (fs : FSState) : Bool × SessionState × FSState :=
  let state := { state with last_updated := now }
  if ev = .mkdirErr then (false, state, fs)
  else
    let fs := { fs with dirExists := true }
    if ev = .mkstempErr then (false, state, fs)
    else
      let fs := { fs with temp := some none }
      if ev = .writeErr then (false, state, { fs with temp := none })
      else
        let fs := { fs with temp := some (some state.to_dict) }
        if ev = .renameErr then (false, state, { fs with temp := none })
        else (true, state, { fs with canonical := some state.to_dict, temp := none })

/-- `load_state(project_dir)`: `none` when the file is absent, otherwise
`from_dict` of its parsed content. -/
def load_state (fs : FSState) : Option SessionState :=
  match fs.canonical with
  | none => none
  | some d => some (SessionState.from_dict d)

/-- The example state of the round-trip scenario:
`current_layer=3, layer_results={1:"pass",2:"fail"}`. -/
def demoState : SessionState :=
  ⟨1, true, false, 3, [(1, "pass"), (2, "fail")], "2023-12-31T00:00:00+00:00"⟩

/-- A filesystem with no state dir, no canonical file and no temp file. -/
def demoFS : FSState := ⟨false, none, none⟩

/-! ## session_start.py: dependency resolver -/

/-- The id of every task, in declaration order (`[t.id for t in tasks]`). -/
def taskIds (tasks : List Task) : List String := tasks.map (·.id)

/-- Key order of a Python dict built by inserting the elements of a list
in order: first occurrences, in order of first insertion.  `seen` is the
set of keys already present. -/
def pyKeysAux (seen : List String) : List String → List String
  | [] => []
  | x :: xs =>
    if seen.contains x then pyKeysAux seen xs
    else x :: pyKeysAux (seen ++ [x]) xs

/-- Key order of a Python dict built by inserting the elements of `l` in
order. -/
def pyKeys (l : List String) : List String := pyKeysAux [] l

/-- Keys of the dicts `task_map` / `in_degree` / `dependents`, all of which
are keyed by `t.id` for `t in tasks` in declaration order. -/
def dictKeys (tasks : List Task) : List String := pyKeys (taskIds tasks)

/-- Lookup in `task_map = {t.id: t for t in tasks}`: repeated insertion
means the LAST task with a given id wins. -/
def taskMapGet (tasks : List Task) (tid : String) : Option Task :=
  tasks.reverse.find? (fun t => t.id == tid)

/-- One outer iteration of the graph-building loop of `topological_sort`:
for each `dep` of `t` that resolves to an existing task id, append `t.id`
to `dependents[dep]` and increment `in_degree[t.id]`. -/
def graphStep (ids : List String) (acc : (String → Int) × (String → List String))
    (t : Task) : (String → Int) × (String → List String) :=
  t.deps.foldl
    (fun acc2 dep =>
      if ids.contains dep then
        ((fun x => if x = t.id then acc2.1 x + 1 else acc2.1 x),
         (fun x => if x = dep then acc2.2 x ++ [t.id] else acc2.2 x))
      else acc2)
    acc

/-- `in_degree` and `dependents` as built by `topological_sort`.  All ids
start at in-degree 0 with no dependents, so the maps are total functions
defaulting to `0` / `[]`. -/
def buildGraph (tasks : List Task) : (String → Int) × (String → List String) :=
  tasks.foldl (graphStep (taskIds tasks)) ((fun _ => 0), (fun _ => []))

/-- Inner step of Kahn's loop: decrement the in-degree of one dependent and
enqueue it if the in-degree became exactly zero. -/
def kahnStep (p : (String → Int) × List String) (dependent : String) :
    (String → Int) × List String :=
  let d := p.1 dependent - 1
  ((fun x => if x = dependent then d else p.1 x),
   if d = 0 then p.2 ++ [dependent] else p.2)

/-- The `while queue:` loop of `topological_sort`, with explicit fuel (the
source terminates because every id is enqueued at most once; `kahnFuel`
overapproximates the iteration count).  Returns `sorted_ids` and the final
`in_degree` map. -/
def kahnLoop (dependents : String → List String) :
    Nat → (String → Int) → List String → List String →
      (List String × (String → Int))
  | 0, deg, _, out => (out, deg)
  | fuel + 1, deg, queue, out =>
    match queue with
    | [] => (out, deg)
    | current :: rest =>
      let s := (dependents current).foldl kahnStep (deg, rest)
      kahnLoop dependents fuel s.1 s.2 (out ++ [current])

/-- Fuel bound: number of tasks plus total number of declared deps. -/
def kahnFuel (tasks : List Task) : Nat :=
  tasks.length + (tasks.map (fun t => t.deps.length)).sum + 1

/-- The full run of Kahn's algorithm inside `topological_sort`: build the
graph, seed the queue with the zero in-degree ids in declaration order,
loop.  Returns `(sorted_ids, final in_degree)`. -/
def kahnRun (tasks : List Task) : List String × (String → Int) :=
  let g := buildGraph tasks
  kahnLoop g.2 (kahnFuel tasks) g.1
    ((dictKeys tasks).filter (fun tid => g.1 tid == 0)) []

/-- `topological_sort(tasks)`: on success the tasks in dependency order;
on a cycle, `ValueError` carrying every id whose in-degree stayed
positive. -/
def topological_sort (tasks : List Task) : Except (List String) (List Task) :=
  let r := kahnRun tasks
  if r.1.length = tasks.length then
    .ok (r.1.filterMap (taskMapGet tasks))
  else
    .error ((dictKeys tasks).filter (fun tid => decide (0 < r.2 tid)))

/-- Ids of the tasks whose status is `"complete"`. -/
def completeIds (tasks : List Task) : List String :=
  (tasks.filter (fun t => t.status == "complete")).map (·.id)

/-- `get_ready_tasks(tasks)`: the pending tasks all of whose deps are
complete, in the order of the input list. -/
def get_ready_tasks (tasks : List Task) : List Task :=
  let complete_ids := completeIds tasks
  tasks.foldl
    (fun ready task =>
      if task.status != "pending" then ready
      else if task.deps.all (fun dep => complete_ids.contains dep) then ready ++ [task]
      else ready)
    []

/-- The resolving dependency edges contributed by one task: `(d, t.id)`
for every `d ∈ t.deps` that is an existing task id, in order.  An edge
`(d, y)` reads "y depends on d: d must come before y". -/
def edgesOfTask (ids : List String) (t : Task) : List (String × String) :=
  (t.deps.filter (fun d => ids.contains d)).map (fun d => (d, t.id))

/-- All resolving dependency edges of the task list, in the order the
graph-building loop of `topological_sort` visits them. -/
def edgesOf (tasks : List Task) : List (String × String) :=
  tasks.flatMap (edgesOfTask (taskIds tasks))

/-- Folding one edge at a time into the `(in_degree, dependents)` maps;
the graph-building loop of `topological_sort` is this fold over
`edgesOf`. -/
def edgeFold (acc : (String → Int) × (String → List String)) :
    List (String × String) → (String → Int) × (String → List String)
  | [] => acc
  | e :: E => edgeFold
      ((fun x => if x = e.2 then acc.1 x + 1 else acc.1 x),
       (fun x => if x = e.1 then acc.2 x ++ [e.2] else acc.2 x)) E

/-- Number of edges whose source has not yet been popped into `out`;
together with the queue length this bounds the remaining loop
iterations. -/
def countNonOut (E : List (String × String)) (out : List String) : Nat :=
  (E.filter (fun e => !(out.contains e.1))).length

/-- Invariant of the outer `while queue:` loop of Kahn's algorithm.
`ids` is the vertex list, `E` the edge list; `deg`, `queue`, `out` are the
loop state (`in_degree`, `queue`, `sorted_ids`). -/
structure KahnInv (ids : List String) (E : List (String × String))
    (deg : String → Int) (queue out : List String) : Prop where
  nodup_out : out.Nodup
  nodup_queue : queue.Nodup
  disj : ∀ x ∈ queue, x ∉ out
  out_ids : ∀ x ∈ out, x ∈ ids
  queue_ids : ∀ x ∈ queue, x ∈ ids
  deg_eq : ∀ x, deg x =
    ((E.filter (fun e => e.2 == x && !(out.contains e.1))).length : Int)
  queue_done : ∀ x ∈ queue, ∀ e ∈ E, e.2 = x → e.1 ∈ out
  out_order : ∀ i, ∀ h : i < out.length, ∀ e ∈ E, e.2 = out[i] → e.1 ∈ out.take i
  zero_in : ∀ x ∈ ids, deg x = 0 → x ∈ out ∨ x ∈ queue

/-- Invariant of the inner fold over `dependents[current]`.  `S` is the
still unprocessed suffix of `current`'s dependents; `out` does not yet
contain `current`. -/
structure MidInv (ids : List String) (E : List (String × String))
    (out : List String) (current : String) (S : List String)
    (deg : String → Int) (queue : List String) : Prop where
  nodup_queue : queue.Nodup
  queue_ids : ∀ x ∈ queue, x ∈ ids
  queue_not_out : ∀ x ∈ queue, x ∉ out ∧ x ≠ current
  deg_eq : ∀ x, deg x = (S.count x : Int) +
    ((E.filter (fun e => e.2 == x && !(out.contains e.1) && e.1 != current)).length : Int)
  queue_done : ∀ x ∈ queue,
    (∀ e ∈ E, e.2 = x → e.1 ∈ out ∨ e.1 = current) ∧ S.count x = 0
  zero_in : ∀ x ∈ ids, deg x = 0 → x ∈ out ∨ x ∈ queue ∨ x = current

/-- Acyclicity of the dependency graph, stated as the standard DAG
characterisation: some numbering of the ids makes every edge strictly
increasing. -/
def Acyclic (tasks : List Task) : Prop :=
  ∃ f : String → Nat, ∀ e ∈ edgesOf tasks, f e.1 < f e.2

/-- A dependency cycle: a nonempty edge path that starts at `x` and returns
to `x` (`c` lists the successive vertices after `x`, ending with `x`). -/
def IsDepCycle (tasks : List Task) (x : String) (c : List String) : Prop :=
  List.Chain (fun a b => (a, b) ∈ edgesOf tasks) x c ∧ c.getLast? = some x

/-- Ready-set scenario task `A`: complete, no deps. -/
def readyA : Task := ⟨"a", "Task A", "done", "complete", [], none, none⟩

/-- Ready-set scenario task `B`: pending, depends on `A`. -/
def readyB : Task := ⟨"b", "Task B", "done", "pending", ["a"], none, none⟩

/-- Ready-set scenario task `C`: pending, depends on `B`. -/
def readyC : Task := ⟨"c", "Task C", "done", "pending", ["b"], none, none⟩

/-- Task `B` after it becomes complete. -/
def readyBdone : Task := ⟨"b", "Task B", "done", "complete", ["a"], none, none⟩

/-- A ranking certifying that the `readyA`/`readyB`/`readyC` graph is
acyclic. -/
def readyRank : String → Nat :=
  fun s => if s = "a" then 0 else if s = "b" then 1 else 2

/-- Declaration-order demo task `X`: pending, depends on `Y`. -/
def ordX : Task := ⟨"x", "Task X", "done", "pending", ["y"], none, none⟩

/-- Declaration-order demo task `Y`: complete, no deps. -/
def ordY : Task := ⟨"y", "Task Y", "done", "complete", [], none, none⟩

/-- Declaration-order demo task `Z`: pending, no deps. -/
def ordZ : Task := ⟨"z", "Task Z", "done", "pending", [], none, none⟩

/-- Cyclic demo task `U`: depends on `V`. -/
def cycU : Task := ⟨"u", "Task U", "done", "pending", ["v"], none, none⟩

/-- Cyclic demo task `V`: depends on `U`. -/
def cycV : Task := ⟨"v", "Task V", "done", "pending", ["u"], none, none⟩

/-- Value of a little-endian digit list (decimal). -/
def ofDigitsLE : List Nat → Nat
  | [] => 0
  | d :: ds => d + 10 * ofDigitsLE ds

/-! ## Theorems -/

/-- The loop of `get_first_failing_layer` returns `none` iff no scanned
layer has status exactly `"FAIL"`. -/
theorem firstFailingAux_eq_none_iff (report : ValidationReport)
    (l : List (Nat × String × String)) :
    firstFailingAux report l = none ↔
      ∀ p ∈ l, layerStatus report p.2.1 ≠ "FAIL" := by
  induction l with
  | nil => simp [firstFailingAux]
  | cons hd tl ih =>
    obtain ⟨n, name, tgt⟩ := hd
    rw [firstFailingAux]
    simp only [beq_iff_eq]
    split
    · rename_i hfail
      simp only [reduceCtorEq, false_iff]
      intro h
      exact (h (n, name, tgt) (List.mem_cons_self _ _)) (by simpa [layerStatus] using hfail)
    · rename_i hnofail
      rw [ih]
      constructor
      · rintro h p hp
        rcases List.mem_cons.mp hp with rfl | hp
        · simpa [layerStatus] using hnofail
        · exact h p hp
      · exact fun h p hp => h p (List.mem_cons_of_mem _ hp)

/-- If the loop of `get_first_failing_layer` finds a failing layer on a list
whose keys are strictly ascending, the found layer is on the list, its
status is `"FAIL"`, and no layer with a smaller number fails. -/
theorem firstFailingAux_eq_some (report : ValidationReport)
    (l : List (Nat × String × String)) (n : Nat) (name msg : String)
    (hsort : l.Pairwise (fun a b => a.1 < b.1))
    (h : firstFailingAux report l = some (n, name, msg)) :
    (∃ tgt, (n, name, tgt) ∈ l) ∧ layerStatus report name = "FAIL" ∧
      ∀ p ∈ l, p.1 < n → layerStatus report p.2.1 ≠ "FAIL" := by
  induction l with
  | nil => simp [firstFailingAux] at h
  | cons hd tl ih =>
    obtain ⟨m, mname, mtgt⟩ := hd
    rw [firstFailingAux] at h
    simp only [beq_iff_eq] at h
    rcases List.pairwise_cons.mp hsort with ⟨hlt, hsort'⟩
    split at h
    · rename_i hfail
      obtain ⟨rfl, rfl, rfl⟩ : m = n ∧ mname = name ∧ _ = msg := by
        simpa using Option.some.inj h
      refine ⟨⟨mtgt, List.mem_cons_self _ _⟩, by simpa [layerStatus] using hfail, ?_⟩
      rintro p hp hplt
      rcases List.mem_cons.mp hp with rfl | hp
      · exact absurd hplt (lt_irrefl _)
      · exact absurd hplt (not_lt_of_gt (hlt p hp))
    · rename_i hnofail
      obtain ⟨⟨tgt, htgt⟩, hstat, hrest⟩ := ih hsort' h
      refine ⟨⟨tgt, List.mem_cons_of_mem _ htgt⟩, hstat, ?_⟩
      rintro p hp hplt
      rcases List.mem_cons.mp hp with rfl | hp
      · simpa [layerStatus] using hnofail
      · exact hrest p hp hplt

/-- Claim C5, counterexample: `TaskSpec` construction performs no
duplicate-id check.  With two distinct tasks sharing the id `"a"`,
construction succeeds and the resulting spec holds both duplicates, so the
claim that it "never constructs successfully with both duplicates present"
is false. -/
theorem c5_counterexample_duplicate_ids_accepted :
    mkTaskSpec 1 "ready_for_implementation" exampleProject [dupTaskA, dupTaskB] =
      .ok ⟨1, "ready_for_implementation", exampleProject, [dupTaskA, dupTaskB]⟩ ∧
    dupTaskA.id = dupTaskB.id ∧ dupTaskA ≠ dupTaskB := by
  refine ⟨rfl, rfl, ?_⟩
  decide

/-- Claim C5 as amended: `TaskSpec` construction checks only the version,
the spec status, and dependency resolution; whenever those pass it succeeds
and keeps the task list exactly as given — in particular both tasks of a
duplicated id are kept. -/
theorem c5_amended_no_uniqueness_check (version : Int) (status : String)
    (project : Project) (tasks : List Task)
    (hv : version = 1)
    (hs : status ∈ ["draft", "needs_review", "ready_for_implementation"])
    (hdeps : ∀ t ∈ tasks, ∀ d ∈ t.deps, d ∈ tasks.map (·.id)) :
    mkTaskSpec version status project tasks = .ok ⟨version, status, project, tasks⟩ := by
  subst hv
  rw [mkTaskSpec]
  rw [if_neg (by simp)]
  rw [if_neg (by simp only [List.elem_eq_true_of_mem hs, Bool.not_true, Bool.false_eq_true, not_false_eq_true])]
  have hnone : (tasks.findSome? (fun t => t.deps.findSome? (fun d =>
      if (tasks.map (·.id)).contains d then none
      else some ("Task " ++ t.id ++ " depends on unknown task: " ++ d)))) = none := by
    rw [List.findSome?_eq_none_iff]
    intro t ht
    rw [List.findSome?_eq_none_iff]
    intro d hd
    rw [if_pos]
    simpa using hdeps t ht d hd
  simp only [hnone]

/-- Witness for `c5_amended_no_uniqueness_check`: the duplicate-id input
satisfies the hypotheses and constructs successfully with both tasks. -/
theorem c5_amended_witness :
    mkTaskSpec 1 "ready_for_implementation" exampleProject [dupTaskA, dupTaskB] =
      .ok ⟨1, "ready_for_implementation", exampleProject, [dupTaskA, dupTaskB]⟩ :=
  c5_amended_no_uniqueness_check 1 "ready_for_implementation" exampleProject
    [dupTaskA, dupTaskB] rfl (by decide) (by decide)

/-- Claim C6: `get_first_failing_layer` scans the four layers in ascending
layer-number order and returns the first whose recorded status is exactly
`"FAIL"`; a missing or `"NOT_RUN"` layer is skipped; the result is `none`
when no layer is `"FAIL"`.  On the layer assignment `{requirements: PASS,
tdd: FAIL, implementation: NOT_RUN, verify: FAIL}` it returns the `tdd`
layer (number 2), and a report whose only recorded layer is a failing
`verify` yields the `verify` layer (missing layers do not block it). -/
theorem c6_first_failing_layer :
    (∀ report : ValidationReport,
      (get_first_failing_layer report = none ↔
        ∀ p ∈ LAYERS, layerStatus report p.2.1 ≠ "FAIL")) ∧
    (∀ report : ValidationReport, ∀ n : Nat, ∀ name msg : String,
      get_first_failing_layer report = some (n, name, msg) →
        (∃ tgt, (n, name, tgt) ∈ LAYERS) ∧
        layerStatus report name = "FAIL" ∧
        ∀ p ∈ LAYERS, p.1 < n → layerStatus report p.2.1 ≠ "FAIL") ∧
    get_first_failing_layer exampleReport = some (2, "tdd", "Gate failed") ∧
    get_first_failing_layer exampleReport2 = some (4, "verify", "boom") := by
  refine ⟨?_, ?_, ?_, ?_⟩
  · exact fun report => firstFailingAux_eq_none_iff report LAYERS
  · intro report n name msg h
    exact firstFailingAux_eq_some report LAYERS n name msg (by decide) h
  · rfl
  · rfl

/-- Claim C7: `check_staleness` reports stale iff the first 7 characters of
each hash are both non-empty and differ; an empty hash on either side is
never stale; equal hashes are never stale; only the first 7 characters are
compared. -/
theorem c7_check_staleness :
    (∀ rh ch : String,
      ((check_staleness rh ch).is_stale = true ↔
        (pySlice7 rh ≠ "" ∧ pySlice7 ch ≠ "" ∧ pySlice7 rh ≠ pySlice7 ch))) ∧
    (∀ h : String, (check_staleness h h).is_stale = false) ∧
    (∀ x : String,
      (check_staleness "" x).is_stale = false ∧
      (check_staleness x "").is_stale = false) ∧
    (check_staleness "abc1234AAA" "abc1234BBB").is_stale = false ∧
    (check_staleness "abc1234" "xyz9999").is_stale = true := by
  have hempty : pySlice7 "" = "" := rfl
  have hslice : ∀ s : String, (if s ≠ "" then pySlice7 s else "") = pySlice7 s := by
    intro s
    split
    · rfl
    · rename_i hs
      simp only [ne_eq, not_not] at hs
      rw [hs, hempty]
  refine ⟨?_, ?_, ?_, by decide, by decide⟩
  · intro rh ch
    simp only [check_staleness, hslice, Bool.and_eq_true, bne_iff_ne, ne_eq]
    tauto
  · intro h
    simp [check_staleness, hslice]
  · intro x
    constructor
    · simp [check_staleness, hempty]
    · simp [check_staleness, hempty]

/-- Every digit produced by `natDigitsLE` is below 10. -/
theorem natDigitsLE_lt_ten (n : Nat) : ∀ d ∈ natDigitsLE n, d < 10 := by
  induction n using Nat.strong_induction_on with
  | _ n ih =>
    match n with
    | 0 => intro d hd; simp [natDigitsLE] at hd
    | m + 1 =>
      intro d hd
      rw [natDigitsLE] at hd
      rcases List.mem_cons.mp hd with rfl | hd
      · exact Nat.mod_lt _ (by norm_num)
      · exact ih ((m + 1) / 10) (Nat.div_lt_self (Nat.succ_pos m) (by norm_num)) d hd

/-- `digitVal` inverts `digitChar` on decimal digits. -/
theorem digitVal_digitChar {d : Nat} (h : d < 10) : digitVal (digitChar d) = d := by
  interval_cases d <;> rfl

/-- `natDigitsLE` is a faithful decimal representation. -/
theorem ofDigitsLE_natDigitsLE (n : Nat) : ofDigitsLE (natDigitsLE n) = n := by
  induction n using Nat.strong_induction_on with
  | _ n ih =>
    match n with
    | 0 => simp [natDigitsLE, ofDigitsLE]
    | m + 1 =>
      rw [natDigitsLE, ofDigitsLE,
        ih ((m + 1) / 10) (Nat.div_lt_self (Nat.succ_pos m) (by norm_num)),
        Nat.mod_add_div]

/-- `parseNatChars` over mapped digit characters is the base-10 fold. -/
theorem parseNatChars_map_digitChar (ds : List Nat) (hds : ∀ d ∈ ds, d < 10) :
    ∀ acc, parseNatChars acc (ds.map digitChar) =
      ds.foldl (fun a d => a * 10 + d) acc := by
  induction ds with
  | nil => intro acc; rfl
  | cons d tl ih =>
    intro acc
    show parseNatChars (acc * 10 + digitVal (digitChar d)) (tl.map digitChar) = _
    rw [digitVal_digitChar (hds d (List.mem_cons_self _ _)), List.foldl_cons]
    exact ih (fun x hx => hds x (List.mem_cons_of_mem _ hx)) _

/-- Folding the reversed little-endian digits recovers the value. -/
theorem foldl_reverse_digits (ds : List Nat) :
    ∀ acc, ds.reverse.foldl (fun a d => a * 10 + d) acc =
      acc * 10 ^ ds.length + ofDigitsLE ds := by
  induction ds with
  | nil => intro acc; simp [ofDigitsLE]
  | cons d tl ih =>
    intro acc
    rw [List.reverse_cons, List.foldl_append, ih acc]
    simp only [List.foldl_cons, List.foldl_nil, ofDigitsLE, List.length_cons]
    ring

/-- Parsing the decimal print of a natural number recovers it. -/
theorem parseNatChars_pyStrNat (n : Nat) :
    parseNatChars 0 (pyStrNat n).data = n := by
  by_cases h : n = 0
  · subst h; rfl
  · rw [pyStrNat, if_neg h]
    show parseNatChars 0 ((natDigitsLE n).reverse.map digitChar) = n
    rw [parseNatChars_map_digitChar _
        (fun d hd => natDigitsLE_lt_ten n d (List.mem_reverse.mp hd)),
      foldl_reverse_digits, ofDigitsLE_natDigitsLE]
    simp

/-- The decimal print of a natural number never contains a minus sign;
in fact its first character is a digit. -/
theorem pyStrNat_head_digit (n : Nat) :
    ∃ d cs, d < 10 ∧ (pyStrNat n).data = digitChar d :: cs := by
  by_cases h : n = 0
  · exact ⟨0, [], by norm_num, by subst h; rfl⟩
  · rw [pyStrNat, if_neg h]
    have hne : natDigitsLE n ≠ [] := by
      match n, h with
      | m + 1, _ => rw [natDigitsLE]; simp
    match hrev : (natDigitsLE n).reverse with
    | [] => exact absurd (by simpa using congrArg List.reverse hrev) hne
    | d :: tl =>
      refine ⟨d, tl.map digitChar, ?_, ?_⟩
      · exact natDigitsLE_lt_ten n d (List.mem_reverse.mp (hrev ▸ List.mem_cons_self _ _))
      · rfl

/-- Evaluation of `pyInt` on an explicitly given character list. -/
theorem pyInt_mk_cons (c : Char) (cs : List Char) :
    pyInt (String.mk (c :: cs)) =
      if c = '-' then -(parseNatChars 0 cs : Int)
      else (parseNatChars 0 (c :: cs) : Int) := rfl

/-- `pyInt` inverts `pyStr`: Python `int(str(k)) == k`. -/
theorem pyInt_pyStr (i : Int) : pyInt (pyStr i) = i := by
  obtain ⟨d, cs, hd, hdata⟩ := pyStrNat_head_digit i.natAbs
  have hmkform : pyStrNat i.natAbs = String.mk (digitChar d :: cs) := by
    rw [← hdata]
  have hval : parseNatChars 0 (digitChar d :: cs) = i.natAbs := by
    rw [← hdata]
    exact parseNatChars_pyStrNat _
  have hdc : digitChar d ≠ '-' := by
    intro hc
    have h1 : (digitChar d).toNat = 48 + d := by interval_cases d <;> rfl
    rw [hc] at h1
    have h2 : ('-').toNat = 45 := rfl
    omega
  by_cases hneg : i < 0
  · rw [pyStr, if_pos hneg, hmkform]
    have happ : "-" ++ String.mk (digitChar d :: cs) =
        String.mk ('-' :: digitChar d :: cs) := rfl
    rw [happ, pyInt_mk_cons, if_pos rfl, hval]
    omega
  · rw [pyStr, if_neg hneg, hmkform, pyInt_mk_cons, if_neg hdc, hval]
    omega

/-- Serialisation round-trip on the session record:
`from_dict (to_dict s) = s`, including the integer keys of
`layer_results` surviving their trip through string keys. -/
theorem from_dict_to_dict (s : SessionState) :
    SessionState.from_dict (SessionState.to_dict s) = s := by
  obtain ⟨v, la, lp, cl, lr, lu⟩ := s
  have hmap : (lr.map (fun p : Int × String => (pyStr p.1, p.2))).map
      (fun p : String × String => (pyInt p.1, p.2)) = lr := by
    rw [List.map_map]
    have hcomp : ((fun p : String × String => (pyInt p.1, p.2)) ∘
        fun p : Int × String => (pyStr p.1, p.2)) = id := by
      funext p
      simp [Function.comp, pyInt_pyStr]
    rw [hcomp, List.map_id]
  simp only [SessionState.to_dict, SessionState.from_dict, Option.getD_some]
  rw [hmap]

/-- Claim C8: `save_state` rewrites `last_updated` to the current time; on
success it returns `True`, the canonical file holds the full serialised
record, and no temp file remains; on any injected I/O failure it returns
`False` (it does not raise), the canonical file's previous content is
unchanged, and the temp file is removed.  The hypothesis says the fresh
temp name created by `mkstemp` did not exist before the call. -/
theorem c8_save_state_atomic (ev : SaveEvent) (now : String)
    (state : SessionState) (fs : FSState) (hfresh : fs.temp = none) :
    (save_state ev now state fs).2.1.last_updated = now ∧
    (ev = .success →
      (save_state ev now state fs).1 = true ∧
      (save_state ev now state fs).2.2.canonical =
        some (SessionState.to_dict (save_state ev now state fs).2.1) ∧
      (save_state ev now state fs).2.2.temp = none) ∧
    (ev ≠ .success →
      (save_state ev now state fs).1 = false ∧
      (save_state ev now state fs).2.2.canonical = fs.canonical ∧
      (save_state ev now state fs).2.2.temp = none) := by
  cases ev <;> simp [save_state, hfresh]

/-- Witness for `c8_save_state_atomic` at a concrete failing rename and at
the successful path. -/
theorem c8_save_state_atomic_witness :
    demoFS.temp = none ∧
    ((save_state SaveEvent.renameErr "2024-01-01T00:00:00+00:00" demoState demoFS).1 = false ∧
     (save_state SaveEvent.renameErr "2024-01-01T00:00:00+00:00" demoState demoFS).2.2.canonical =
       demoFS.canonical ∧
     (save_state SaveEvent.renameErr "2024-01-01T00:00:00+00:00" demoState demoFS).2.2.temp = none) :=
  ⟨rfl,
   (c8_save_state_atomic SaveEvent.renameErr "2024-01-01T00:00:00+00:00" demoState demoFS rfl).2.2
     (by decide)⟩

/-- Claim C9: saving with `save_state` then loading with `load_state`
yields a record equal to the saved one in every field except that
`last_updated` holds the save time — in particular `current_layer = 3` and
`layer_results = {1: "pass", 2: "fail"}` survive the round-trip through
string keys, as the second conjunct instantiates. -/
theorem c9_save_load_roundtrip :
    (∀ (now : String) (state : SessionState) (fs : FSState),
      load_state (save_state SaveEvent.success now state fs).2.2 =
        some { state with last_updated := now }) ∧
    load_state (save_state SaveEvent.success "2024-01-01T00:00:00+00:00" demoState demoFS).2.2 =
      some { demoState with last_updated := "2024-01-01T00:00:00+00:00" } := by
  have main : ∀ (now : String) (state : SessionState) (fs : FSState),
      load_state (save_state SaveEvent.success now state fs).2.2 =
        some { state with last_updated := now } := by
    intro now state fs
    show load_state { fs with
      dirExists := true,
      canonical := some (SessionState.to_dict { state with last_updated := now }),
      temp := none } = _
    rw [load_state]
    simp only [from_dict_to_dict]
  exact ⟨main, main _ _ _⟩

/-- Claim C10: `save_state` mutates only the `last_updated` field of the
record passed to it: whatever the outcome, the record after the call
equals the input record with `last_updated` replaced by the new
timestamp (all other fields are framed). -/
theorem c10_save_state_frame (ev : SaveEvent) (now : String)
    (state : SessionState) (fs : FSState) :
    (save_state ev now state fs).2.1 = { state with last_updated := now } := by
  cases ev <;> rfl

/-- The accumulating loop of `get_ready_tasks` is a filter. -/
theorem get_ready_foldl_eq_filter (cids : List String) (l : List Task)
    (acc : List Task) :
    l.foldl
      (fun ready task =>
        if task.status != "pending" then ready
        else if task.deps.all (fun dep => cids.contains dep) then ready ++ [task]
        else ready)
      acc
    = acc ++ l.filter (fun t => t.status == "pending" &&
        t.deps.all (fun dep => cids.contains dep)) := by
  induction l generalizing acc with
  | nil => simp
  | cons hd tl ih =>
    rw [List.foldl_cons, List.filter_cons]
    by_cases h1 : (hd.status == "pending") = true
    · have hbne : (hd.status != "pending") = false := by
        show (!(hd.status == "pending")) = false
        rw [h1]
        rfl
      by_cases h2 : (hd.deps.all fun dep => cids.contains dep) = true
      · simp only [hbne, Bool.false_eq_true, if_false, h2, Bool.and_true, h1,
          if_true]
        rw [ih]
        simp
      · have h2f : (hd.deps.all fun dep => cids.contains dep) = false := by
          cases hb : (hd.deps.all fun dep => cids.contains dep) with
          | true => exact absurd hb h2
          | false => rfl
        simp only [hbne, Bool.false_eq_true, if_false, h2f, Bool.and_false]
        rw [ih]
    · have h1f : (hd.status == "pending") = false := by
        cases hb : (hd.status == "pending") with
        | true => exact absurd hb h1
        | false => rfl
      have hbne : (hd.status != "pending") = true := by
        show (!(hd.status == "pending")) = true
        rw [h1f]
        rfl
      simp only [hbne, if_true, h1f, Bool.false_and, Bool.false_eq_true, if_false]
      rw [ih]

/-- `get_ready_tasks` as a filter over the input order. -/
theorem get_ready_tasks_eq_filter (tasks : List Task) :
    get_ready_tasks tasks = tasks.filter (fun t => t.status == "pending" &&
      t.deps.all (fun dep => (completeIds tasks).contains dep)) := by
  rw [get_ready_tasks, get_ready_foldl_eq_filter, List.nil_append]

/-- Claim C3: `get_ready_tasks` returns exactly the tasks whose status is
`"pending"` and all of whose deps are ids of complete tasks; tasks with
status `"in_progress"` or `"complete"` are never returned.  On the
scenario `A` (complete, no deps), `B` (pending, deps=[A]), `C` (pending,
deps=[B]) the ready set is `[B]`, and after `B` becomes complete it is
`[C]`. -/
theorem c3_get_ready_tasks :
    (∀ (tasks : List Task) (t : Task),
      (t ∈ get_ready_tasks tasks ↔
        t ∈ tasks ∧ t.status = "pending" ∧ ∀ d ∈ t.deps, d ∈ completeIds tasks)) ∧
    (∀ (tasks : List Task) (t : Task),
      (t.status = "in_progress" ∨ t.status = "complete") →
        t ∉ get_ready_tasks tasks) ∧
    get_ready_tasks [readyA, readyB, readyC] = [readyB] ∧
    get_ready_tasks [readyA, readyBdone, readyC] = [readyC] := by
  have hmem : ∀ (tasks : List Task) (t : Task),
      (t ∈ get_ready_tasks tasks ↔
        t ∈ tasks ∧ t.status = "pending" ∧ ∀ d ∈ t.deps, d ∈ completeIds tasks) := by
    intro tasks t
    rw [get_ready_tasks_eq_filter, List.mem_filter]
    simp only [Bool.and_eq_true, beq_iff_eq, List.all_eq_true]
    constructor
    · rintro ⟨hm, hs, hall⟩
      exact ⟨hm, hs, fun d hd => List.elem_iff.mp (hall d hd)⟩
    · rintro ⟨hm, hs, hall⟩
      exact ⟨hm, hs, fun d hd => List.elem_iff.mpr (hall d hd)⟩
  refine ⟨hmem, ?_, by decide, by decide⟩
  intro tasks t hst hmem2
  rcases (hmem tasks t).mp hmem2 with ⟨-, hpend, -⟩
  rcases hst with h | h <;> rw [h] at hpend <;> exact absurd hpend (by decide)

/-- Claim C4: the ready set computed on the resolver's output (as `main`
does: `get_ready_tasks(topological_sort(tasks))`) is a sublist of — hence
ordered consistently with — the topological order, not the declaration
order.  The concrete conjuncts exhibit an input whose ready set in
topological order `[Z, X]` differs from its declaration-order ready set
`[X, Z]`. -/
theorem c4_ready_follows_topo_order :
    (∀ (tasks : List Task) (res : List Task),
      topological_sort tasks = .ok res → (get_ready_tasks res).Sublist res) ∧
    topological_sort [ordX, ordY, ordZ] = .ok [ordY, ordZ, ordX] ∧
    get_ready_tasks [ordY, ordZ, ordX] = [ordZ, ordX] ∧
    get_ready_tasks [ordX, ordY, ordZ] = [ordX, ordZ] := by
  refine ⟨?_, by rfl, by decide, by decide⟩
  intro tasks res _
  rw [get_ready_tasks_eq_filter]
  exact List.filter_sublist _

/-! ### Dict key order -/

/-- Membership in the dict key list: the inserted elements not already
present. -/
theorem mem_pyKeysAux (l : List String) : ∀ (seen : List String) (a : String),
    a ∈ pyKeysAux seen l ↔ a ∈ l ∧ a ∉ seen := by
  induction l with
  | nil =>
    intro seen a
    simp [pyKeysAux]
  | cons x xs ih =>
    intro seen a
    rw [pyKeysAux]
    split
    · rename_i hc
      have hx : x ∈ seen := List.elem_iff.mp hc
      rw [ih]
      simp only [List.mem_cons]
      constructor
      · rintro ⟨hm, hns⟩
        exact ⟨Or.inr hm, hns⟩
      · rintro ⟨hm | hm, hns⟩
        · subst hm
          exact absurd hx hns
        · exact ⟨hm, hns⟩
    · rename_i hc
      have hx : x ∉ seen := fun h => hc (List.elem_iff.mpr h)
      simp only [List.mem_cons, ih]
      constructor
      · rintro (rfl | ⟨hm, hns⟩)
        · exact ⟨Or.inl rfl, hx⟩
        · refine ⟨Or.inr hm, fun hs => hns ?_⟩
          simp [hs]
      · rintro ⟨rfl | hm, hns⟩
        · exact Or.inl rfl
        · by_cases hax : a = x
          · exact Or.inl hax
          · refine Or.inr ⟨hm, ?_⟩
            simp [List.mem_append, hns, hax]

/-- Dict keys are distinct. -/
theorem nodup_pyKeysAux (l : List String) : ∀ seen, (pyKeysAux seen l).Nodup := by
  induction l with
  | nil =>
    intro seen
    simp [pyKeysAux]
  | cons x xs ih =>
    intro seen
    rw [pyKeysAux]
    split
    · exact ih seen
    · refine List.nodup_cons.mpr ⟨?_, ih _⟩
      intro hmem
      rcases (mem_pyKeysAux xs _ x).mp hmem with ⟨-, hns⟩
      exact hns (by simp)

/-- There are no more dict keys than insertions. -/
theorem length_pyKeysAux_le (l : List String) :
    ∀ seen, (pyKeysAux seen l).length ≤ l.length := by
  induction l with
  | nil =>
    intro seen
    simp [pyKeysAux]
  | cons x xs ih =>
    intro seen
    rw [pyKeysAux]
    split
    · exact (ih seen).trans (Nat.le_succ _)
    · simpa using Nat.succ_le_succ (ih (seen ++ [x]))

/-- Inserting distinct fresh keys keeps them all, in order. -/
theorem pyKeysAux_eq_self (l : List String) :
    ∀ seen, l.Nodup → (∀ a ∈ l, a ∉ seen) → pyKeysAux seen l = l := by
  induction l with
  | nil =>
    intro seen _ _
    rfl
  | cons x xs ih =>
    intro seen hnd hout
    rcases List.nodup_cons.mp hnd with ⟨hx, hxs⟩
    rw [pyKeysAux,
      if_neg (fun h => hout x (List.mem_cons_self _ _) (List.elem_iff.mp h))]
    congr 1
    refine ih _ hxs fun a ha => ?_
    simp only [List.mem_append, List.mem_singleton]
    rintro (h | rfl)
    · exact hout a (List.mem_cons_of_mem _ ha) h
    · exact hx ha

/-- Membership in `pyKeys`. -/
theorem mem_pyKeys (l : List String) (a : String) : a ∈ pyKeys l ↔ a ∈ l := by
  rw [pyKeys, mem_pyKeysAux]
  simp

/-- `pyKeys` never repeats a key. -/
theorem nodup_pyKeys (l : List String) : (pyKeys l).Nodup := nodup_pyKeysAux l []

/-- `pyKeys` length bound. -/
theorem length_pyKeys_le (l : List String) : (pyKeys l).length ≤ l.length :=
  length_pyKeysAux_le l []

/-- On a duplicate-free list `pyKeys` is the identity. -/
theorem pyKeys_eq_self (l : List String) (hnd : l.Nodup) : pyKeys l = l :=
  pyKeysAux_eq_self l [] hnd (by simp)

/-! ### Graph building -/

/-- `edgeFold` distributes over append. -/
theorem edgeFold_append (E1 : List (String × String)) :
    ∀ (acc : (String → Int) × (String → List String)) (E2 : List (String × String)),
      edgeFold acc (E1 ++ E2) = edgeFold (edgeFold acc E1) E2 := by
  induction E1 with
  | nil =>
    intro acc E2
    rfl
  | cons e E1 ih =>
    intro acc E2
    rw [List.cons_append, edgeFold, edgeFold]
    exact ih _ E2

/-- The inner dep loop of the graph builder, as an edge fold. -/
theorem deps_foldl_eq_edgeFold (ids : List String) (tid : String) :
    ∀ (ds : List String) (acc : (String → Int) × (String → List String)),
    ds.foldl (fun (acc2 : (String → Int) × (String → List String)) dep =>
      if ids.contains dep then
        ((fun x => if x = tid then acc2.1 x + 1 else acc2.1 x),
         (fun x => if x = dep then acc2.2 x ++ [tid] else acc2.2 x))
      else acc2) acc
    = edgeFold acc ((ds.filter (fun d => ids.contains d)).map (fun d => (d, tid))) := by
  intro ds
  induction ds with
  | nil =>
    intro acc
    rfl
  | cons d ds ih =>
    intro acc
    rw [List.foldl_cons, List.filter_cons]
    by_cases hc : (ids.contains d) = true
    · rw [if_pos hc, if_pos hc, List.map_cons, edgeFold]
      exact ih _
    · rw [if_neg hc, if_neg hc]
      exact ih acc

/-- One outer iteration of the graph builder is the edge fold of that
task's resolving edges. -/
theorem graphStep_eq_edgeFold (ids : List String) (t : Task)
    (acc : (String → Int) × (String → List String)) :
    graphStep ids acc t = edgeFold acc (edgesOfTask ids t) :=
  deps_foldl_eq_edgeFold ids t.id t.deps acc

/-- The whole graph builder is the edge fold of all resolving edges. -/
theorem foldl_graphStep_eq (ids : List String) :
    ∀ (ts : List Task) (acc : (String → Int) × (String → List String)),
      ts.foldl (graphStep ids) acc = edgeFold acc (ts.flatMap (edgesOfTask ids)) := by
  intro ts
  induction ts with
  | nil =>
    intro acc
    rfl
  | cons t ts ih =>
    intro acc
    rw [List.foldl_cons, List.flatMap_cons, edgeFold_append, graphStep_eq_edgeFold]
    exact ih _

/-- `buildGraph` as an edge fold from the empty maps. -/
theorem buildGraph_eq_edgeFold (tasks : List Task) :
    buildGraph tasks =
      edgeFold ((fun _ => 0), (fun _ => [])) (edgesOf tasks) := by
  rw [buildGraph, edgesOf, foldl_graphStep_eq]

/-- Pointwise in-degree computed by an edge fold. -/
theorem edgeFold_deg (E : List (String × String)) :
    ∀ (acc : (String → Int) × (String → List String)) (x : String),
      (edgeFold acc E).1 x =
        acc.1 x + ((E.filter (fun e => e.2 == x)).length : Int) := by
  induction E with
  | nil =>
    intro acc x
    simp [edgeFold]
  | cons e E ih =>
    intro acc x
    rw [edgeFold, ih, List.filter_cons]
    by_cases hx : (e.2 == x) = true
    · rw [if_pos hx]
      have hxe : x = e.2 := (beq_iff_eq.mp hx).symm
      show (if x = e.2 then acc.1 x + 1 else acc.1 x) + _ = _
      rw [if_pos hxe, List.length_cons]
      push_cast
      ring
    · rw [if_neg hx]
      have hne : ¬(x = e.2) := fun h => hx (beq_iff_eq.mpr h.symm)
      show (if x = e.2 then acc.1 x + 1 else acc.1 x) + _ = _
      rw [if_neg hne]

/-- Pointwise dependents list computed by an edge fold. -/
theorem edgeFold_dependents (E : List (String × String)) :
    ∀ (acc : (String → Int) × (String → List String)) (d : String),
      (edgeFold acc E).2 d =
        acc.2 d ++ (E.filter (fun e => e.1 == d)).map (·.2) := by
  induction E with
  | nil =>
    intro acc d
    simp [edgeFold]
  | cons e E ih =>
    intro acc d
    rw [edgeFold, ih, List.filter_cons]
    by_cases hx : (e.1 == d) = true
    · rw [if_pos hx]
      have hxe : d = e.1 := (beq_iff_eq.mp hx).symm
      show (if d = e.1 then acc.2 d ++ [e.2] else acc.2 d) ++ _ = _
      rw [if_pos hxe]
      simp
    · rw [if_neg hx]
      have hne : ¬(d = e.1) := fun h => hx (beq_iff_eq.mpr h.symm)
      show (if d = e.1 then acc.2 d ++ [e.2] else acc.2 d) ++ _ = _
      rw [if_neg hne]

/-- `in_degree` after graph building counts the resolving edges into a
vertex. -/
theorem buildGraph_deg (tasks : List Task) (x : String) :
    (buildGraph tasks).1 x =
      (((edgesOf tasks).filter (fun e => e.2 == x)).length : Int) := by
  rw [buildGraph_eq_edgeFold, edgeFold_deg]
  simp

/-- `dependents` after graph building lists the targets of the edges out
of a vertex, in edge order. -/
theorem buildGraph_dependents (tasks : List Task) (d : String) :
    (buildGraph tasks).2 d =
      ((edgesOf tasks).filter (fun e => e.1 == d)).map (·.2) := by
  rw [buildGraph_eq_edgeFold, edgeFold_dependents]
  simp

/-- Characterisation of the edge list. -/
theorem mem_edgesOf_iff (tasks : List Task) (d y : String) :
    (d, y) ∈ edgesOf tasks ↔
      ∃ t ∈ tasks, t.id = y ∧ d ∈ t.deps ∧ d ∈ taskIds tasks := by
  constructor
  · intro h
    rcases List.mem_flatMap.mp h with ⟨t, ht, hmem⟩
    rcases List.mem_map.mp hmem with ⟨a, ha, heq⟩
    rcases List.mem_filter.mp ha with ⟨had, hac⟩
    injection heq with h1 h2
    subst h1
    exact ⟨t, ht, h2, had, List.elem_iff.mp hac⟩
  · rintro ⟨t, ht, rfl, hd, hid⟩
    exact List.mem_flatMap.mpr ⟨t, ht, List.mem_map.mpr
      ⟨d, List.mem_filter.mpr ⟨hd, List.elem_iff.mpr hid⟩, rfl⟩⟩

/-- Both endpoints of every edge are task ids. -/
theorem edgesOf_ends_mem (tasks : List Task) :
    ∀ e ∈ edgesOf tasks, e.1 ∈ taskIds tasks ∧ e.2 ∈ taskIds tasks := by
  rintro ⟨d, y⟩ he
  rcases (mem_edgesOf_iff tasks d y).mp he with ⟨t, ht, rfl, -, hids⟩
  exact ⟨hids, List.mem_map.mpr ⟨t, ht, rfl⟩⟩

/-- Total length of per-task edge lists is bounded by total declared
deps. -/
theorem length_flatMap_edgesOfTask_le (ids : List String) :
    ∀ ts : List Task,
      (ts.flatMap (edgesOfTask ids)).length ≤
        (ts.map (fun t => t.deps.length)).sum := by
  intro ts
  induction ts with
  | nil => simp
  | cons t ts ih =>
    rw [List.flatMap_cons, List.length_append, List.map_cons, List.sum_cons]
    have h1 : (edgesOfTask ids t).length ≤ t.deps.length := by
      rw [edgesOfTask, List.length_map]
      exact List.length_filter_le _ _
    omega

/-- Edge count is bounded by the total number of declared deps. -/
theorem length_edgesOf_le (tasks : List Task) :
    (edgesOf tasks).length ≤ (tasks.map (fun t => t.deps.length)).sum := by
  rw [edgesOf]
  exact length_flatMap_edgesOfTask_le _ tasks

/-! ### Counting helpers -/

/-- Counting occurrences in a mapped-out second component. -/
theorem count_map_snd (E : List (String × String)) (x : String) :
    (E.map (·.2)).count x = E.countP (fun e => e.2 == x) := by
  induction E with
  | nil => rfl
  | cons e E ih =>
    rw [List.map_cons, List.count_cons, ih, List.countP_cons]

/-- Splitting a count along a second predicate. -/
theorem countP_partition {α : Type} (p c : α → Bool) (l : List α) :
    l.countP p =
      l.countP (fun a => p a && c a) + l.countP (fun a => p a && !(c a)) := by
  induction l with
  | nil => rfl
  | cons a l ih =>
    rw [List.countP_cons, List.countP_cons, List.countP_cons, ih]
    cases hp : p a <;> cases hc : c a <;> simp [hp, hc] <;> omega

/-! ### The inner fold of Kahn's loop -/

/-- Unfolding of one `kahnStep`. -/
theorem kahnStep_eq (deg : String → Int) (queue : List String) (y : String) :
    kahnStep (deg, queue) y =
      ((fun x => if x = y then deg y - 1 else deg x),
       if deg y - 1 = 0 then queue ++ [y] else queue) := rfl

/-- Processing the remaining dependents of `current` preserves the
mid-iteration invariant and ends with the suffix fully consumed; the queue
grows by at most one entry per processed dependent. -/
theorem kahnFold_mid (ids : List String) (E : List (String × String))
    (out : List String) (current : String)
    (hE : ∀ e ∈ E, e.1 ∈ ids ∧ e.2 ∈ ids)
    (hcurout : current ∉ out)
    (hcurdone : ∀ e ∈ E, e.2 = current → e.1 ∈ out)
    (hclosed : ∀ x ∈ out, ∀ e ∈ E, e.2 = x → e.1 ∈ out) :
    ∀ (S : List String) (deg : String → Int) (queue : List String),
      (∀ y ∈ S, (current, y) ∈ E) →
      MidInv ids E out current S deg queue →
      MidInv ids E out current [] (S.foldl kahnStep (deg, queue)).1
        (S.foldl kahnStep (deg, queue)).2 ∧
      (S.foldl kahnStep (deg, queue)).2.length ≤ queue.length + S.length := by
  intro S
  induction S with
  | nil =>
    intro deg queue _ hinv
    exact ⟨hinv, le_rfl⟩
  | cons y S ih =>
    intro deg queue hSE hinv
    have hyE : (current, y) ∈ E := hSE y (List.mem_cons_self _ _)
    have hy_ids : y ∈ ids := (hE _ hyE).2
    have hynot_out : y ∉ out := fun hyout =>
      hcurout (hclosed y hyout (current, y) hyE rfl)
    have hyne_cur : y ≠ current := fun h =>
      hcurout (hcurdone (current, y) hyE h)
    have hSE' : ∀ z ∈ S, (current, z) ∈ E :=
      fun z hz => hSE z (List.mem_cons_of_mem _ hz)
    have hdegy := hinv.deg_eq y
    rw [List.count_cons_self] at hdegy
    rw [List.foldl_cons, kahnStep_eq]
    by_cases hdz : deg y - 1 = 0
    · -- the decrement reaches zero: y is appended to the queue
      rw [if_pos hdz]
      have hsplit : S.count y = 0 ∧
          (E.filter (fun e =>
            e.2 == y && !(out.contains e.1) && e.1 != current)).length = 0 := by
        constructor <;> omega
      have hynq : y ∉ queue := fun hyq => by
        have := (hinv.queue_done y hyq).2
        rw [List.count_cons_self] at this
        omega
      have hydone : ∀ e ∈ E, e.2 = y → e.1 ∈ out ∨ e.1 = current := by
        intro e he hey
        by_contra hcon
        push_neg at hcon
        have hmem : e ∈ E.filter (fun e =>
            e.2 == y && !(out.contains e.1) && e.1 != current) := by
          refine List.mem_filter.mpr ⟨he, ?_⟩
          have h1 : (e.2 == y) = true := beq_iff_eq.mpr hey
          have h2 : (out.contains e.1) = false := by
            cases hb : out.contains e.1 with
            | true => exact absurd (List.elem_iff.mp hb) hcon.1
            | false => rfl
          have h3 : (e.1 != current) = true := by
            show (!(e.1 == current)) = true
            have : (e.1 == current) = false := by
              cases hb : e.1 == current with
              | true => exact absurd (beq_iff_eq.mp hb) hcon.2
              | false => rfl
            rw [this]
            rfl
          rw [h1, h2, h3]
          rfl
        rw [List.length_eq_zero] at hsplit
        rw [hsplit.2] at hmem
        exact absurd hmem (List.not_mem_nil e)
      have hinv2 : MidInv ids E out current S
          (fun x => if x = y then deg y - 1 else deg x) (queue ++ [y]) := by
        refine ⟨?_, ?_, ?_, ?_, ?_, ?_⟩
        · rw [List.nodup_append]
          exact ⟨hinv.nodup_queue, List.nodup_singleton _,
            fun a ha hay => by
              rw [List.mem_singleton] at hay
              exact hynq (hay ▸ ha)⟩
        · intro x hx
          rcases List.mem_append.mp hx with hx | hx
          · exact hinv.queue_ids x hx
          · rw [List.mem_singleton] at hx
            exact hx ▸ hy_ids
        · intro x hx
          rcases List.mem_append.mp hx with hx | hx
          · exact hinv.queue_not_out x hx
          · rw [List.mem_singleton] at hx
            exact hx ▸ ⟨hynot_out, hyne_cur⟩
        · intro x
          by_cases hxy : x = y
          · subst hxy
            rw [if_pos rfl, hsplit.1, hsplit.2]
            simpa using hdz
          · rw [if_neg hxy]
            have := hinv.deg_eq x
            rwa [List.count_cons_of_ne hxy] at this
        · intro x hx
          rcases List.mem_append.mp hx with hx | hx
          · rcases hinv.queue_done x hx with ⟨hdone, hcount⟩
            rw [List.count_cons] at hcount
            refine ⟨hdone, ?_⟩
            omega
          · rw [List.mem_singleton] at hx
            subst hx
            exact ⟨hydone, hsplit.1⟩
        · intro x hx hx0
          by_cases hxy : x = y
          · subst hxy
            exact Or.inr (Or.inl (List.mem_append.mpr (Or.inr (List.mem_singleton.mpr rfl))))
          · rw [if_neg hxy] at hx0
            rcases hinv.zero_in x hx hx0 with h | h | h
            · exact Or.inl h
            · exact Or.inr (Or.inl (List.mem_append.mpr (Or.inl h)))
            · exact Or.inr (Or.inr h)
      rcases ih _ _ hSE' hinv2 with ⟨hfin, hlen⟩
      refine ⟨hfin, ?_⟩
      simp only [List.length_append, List.length_cons, List.length_nil] at hlen ⊢
      omega
    · -- the decrement does not reach zero: queue unchanged
      rw [if_neg hdz]
      have hinv2 : MidInv ids E out current S
          (fun x => if x = y then deg y - 1 else deg x) queue := by
        refine ⟨hinv.nodup_queue, hinv.queue_ids, hinv.queue_not_out, ?_, ?_, ?_⟩
        · intro x
          by_cases hxy : x = y
          · subst hxy
            rw [if_pos rfl]
            omega
          · rw [if_neg hxy]
            have := hinv.deg_eq x
            rwa [List.count_cons_of_ne hxy] at this
        · intro x hx
          rcases hinv.queue_done x hx with ⟨hdone, hcount⟩
          rw [List.count_cons] at hcount
          refine ⟨hdone, ?_⟩
          omega
        · intro x hx hx0
          by_cases hxy : x = y
          · subst hxy
            rw [if_pos rfl] at hx0
            exact absurd hx0 hdz
          · rw [if_neg hxy] at hx0
            exact hinv.zero_in x hx hx0
      rcases ih _ _ hSE' hinv2 with ⟨hfin, hlen⟩
      refine ⟨hfin, ?_⟩
      simp only [List.length_cons] at hlen ⊢
      omega

/-- Boolean `contains` is false exactly on non-members. -/
theorem contains_eq_false (l : List String) (a : String) :
    (l.contains a) = false ↔ a ∉ l := by
  constructor
  · intro h hm
    have h2 : l.contains a = true := List.elem_iff.mpr hm
    rw [h] at h2
    exact Bool.false_ne_true h2
  · intro hm
    cases hb : l.contains a with
    | false => rfl
    | true => exact absurd (List.elem_iff.mp hb) hm

/-- Boolean `contains` is true on members (stated on `contains` so that it
rewrites). -/
theorem contains_eq_true (l : List String) (a : String) (h : a ∈ l) :
    l.contains a = true := List.elem_iff.mpr h

/-- Appending one element to the popped list, on the Boolean side. -/
theorem not_contains_append_singleton (out : List String) (current a : String) :
    (!((out ++ [current]).contains a)) = (!(out.contains a) && (a != current)) := by
  by_cases hmem : a ∈ out ++ [current]
  · rw [contains_eq_true _ _ hmem]
    rcases List.mem_append.mp hmem with h | h
    · rw [contains_eq_true _ _ h]
      rfl
    · rw [List.mem_singleton] at h
      have hbne : (a != current) = false := by
        show (!(a == current)) = false
        rw [beq_iff_eq.mpr h]
        rfl
      rw [hbne, Bool.and_false]
      rfl
  · have h1 := (contains_eq_false _ _).mpr hmem
    have h2 := (contains_eq_false _ _).mpr
      (fun h => hmem (List.mem_append.mpr (Or.inl h)))
    have h3 : (a == current) = false := by
      cases hb : a == current with
      | true => exact absurd (List.mem_append.mpr (Or.inr
          (List.mem_singleton.mpr (beq_iff_eq.mp hb)))) hmem
      | false => rfl
    rw [h1, h2]
    simp [bne, h3]

/-- A positive count yields a member. -/
theorem mem_of_count_pos (l : List String) (a : String) (h : 0 < l.count a) :
    a ∈ l := by
  by_contra hm
  rw [List.count_eq_zero_of_not_mem hm] at h
  exact absurd h (lt_irrefl 0)

/-- The popped elements only ever point back into themselves. -/
theorem kahnInv_out_closed (ids : List String) (E : List (String × String))
    (deg : String → Int) (queue out : List String)
    (inv : KahnInv ids E deg queue out) :
    ∀ x ∈ out, ∀ e ∈ E, e.2 = x → e.1 ∈ out := by
  intro x hx e he hex
  obtain ⟨i, hi, rfl⟩ := List.mem_iff_getElem.mp hx
  exact List.take_subset _ _ (inv.out_order i hi e he hex)

/-- One iteration of the outer loop: popping `current` and processing its
dependents restores the loop invariant with `current` appended to the
output, and strictly decreases the termination measure. -/
theorem kahnIter (ids : List String) (E : List (String × String))
    (dependents : String → List String)
    (hE : ∀ e ∈ E, e.1 ∈ ids ∧ e.2 ∈ ids)
    (hdep : ∀ d, dependents d = ((E.filter (fun e => e.1 == d)).map (·.2)))
    (deg : String → Int) (current : String) (rest out : List String)
    (inv : KahnInv ids E deg (current :: rest) out) :
    KahnInv ids E ((dependents current).foldl kahnStep (deg, rest)).1
      ((dependents current).foldl kahnStep (deg, rest)).2 (out ++ [current]) ∧
    ((dependents current).foldl kahnStep (deg, rest)).2.length +
        countNonOut E (out ++ [current]) + 1 ≤
      (current :: rest).length + countNonOut E out := by
  have hcur_mem : current ∈ current :: rest := List.mem_cons_self _ _
  have hcurout : current ∉ out := inv.disj current hcur_mem
  have hcurdone : ∀ e ∈ E, e.2 = current → e.1 ∈ out :=
    inv.queue_done current hcur_mem
  have hclosed := kahnInv_out_closed ids E deg (current :: rest) out inv
  have hcurcont : (out.contains current) = false := (contains_eq_false _ _).mpr hcurout
  have hSdef : dependents current = (E.filter (fun e => e.1 == current)).map (·.2) :=
    hdep current
  have hScur : ∀ y ∈ dependents current, (current, y) ∈ E := by
    intro y hy
    rw [hSdef] at hy
    rcases List.mem_map.mp hy with ⟨e, he, hey⟩
    rcases List.mem_filter.mp he with ⟨heE, hec⟩
    have h1 : e.1 = current := beq_iff_eq.mp hec
    have : e = (current, y) := by
      obtain ⟨a, b⟩ := e
      simp only at h1 hey
      rw [h1, hey]
    exact this ▸ heE
  have hcount_zero : ∀ x ∈ rest, (dependents current).count x = 0 := by
    intro x hx
    by_contra hc
    have hpos : 0 < (dependents current).count x := Nat.pos_of_ne_zero hc
    have hxS : x ∈ dependents current := mem_of_count_pos _ _ hpos
    exact hcurout (inv.queue_done x (List.mem_cons_of_mem _ hx) (current, x)
      (hScur x hxS) rfl)
  -- count of x among current's dependents = edges current → x
  have hcountS : ∀ x, ((dependents current).count x : Int) =
      ((E.countP (fun e => (e.2 == x && !(out.contains e.1)) && e.1 == current)) : Int) := by
    intro x
    rw [hSdef, count_map_snd, List.countP_filter]
    congr 1
    refine List.countP_congr fun e he => ?_
    cases h1 : e.1 == current with
    | false => simp
    | true =>
      have hof : (out.contains e.1) = false := by
        rw [beq_iff_eq.mp h1]
        exact hcurcont
      rw [hof]
      simp
  have hmid0 : MidInv ids E out current (dependents current) deg rest := by
    refine ⟨(List.nodup_cons.mp inv.nodup_queue).2, ?_, ?_, ?_, ?_, ?_⟩
    · exact fun x hx => inv.queue_ids x (List.mem_cons_of_mem _ hx)
    · intro x hx
      refine ⟨inv.disj x (List.mem_cons_of_mem _ hx), fun hxc => ?_⟩
      exact (List.nodup_cons.mp inv.nodup_queue).1 (hxc ▸ hx)
    · intro x
      rw [inv.deg_eq x, ← List.countP_eq_length_filter,
        countP_partition (fun e => e.2 == x && !(out.contains e.1))
          (fun e => e.1 == current) E, hcountS x]
      have hsame : E.countP (fun e => (e.2 == x && !(out.contains e.1)) && !(e.1 == current)) =
          E.countP (fun e => e.2 == x && !(out.contains e.1) && e.1 != current) := by
        refine List.countP_congr fun e he => ?_
        cases hb1 : e.2 == x <;> cases hb2 : out.contains e.1 <;>
          cases hb3 : e.1 == current <;> simp [hb1, hb2, hb3, bne]
      rw [hsame]
      simp only [List.countP_eq_length_filter]
      push_cast
      ring
    · intro x hx
      exact ⟨fun e he hex => Or.inl (inv.queue_done x (List.mem_cons_of_mem _ hx) e he hex),
        hcount_zero x hx⟩
    · intro x hx hx0
      rcases inv.zero_in x hx hx0 with h | h
      · exact Or.inl h
      · rcases List.mem_cons.mp h with rfl | h
        · exact Or.inr (Or.inr rfl)
        · exact Or.inr (Or.inl h)
  rcases kahnFold_mid ids E out current hE hcurout hcurdone hclosed
      (dependents current) deg rest hScur hmid0 with ⟨hfin, hlen⟩
  constructor
  · -- rebuild the outer invariant at out ++ [current]
    refine ⟨?_, hfin.nodup_queue, ?_, ?_, hfin.queue_ids, ?_, ?_, ?_, ?_⟩
    · rw [List.nodup_append]
      exact ⟨inv.nodup_out, List.nodup_singleton _,
        fun a ha hay => (List.mem_singleton.mp hay ▸ hcurout) ha⟩
    · intro x hx
      rcases hfin.queue_not_out x hx with ⟨h1, h2⟩
      intro hmem
      rcases List.mem_append.mp hmem with h | h
      · exact h1 h
      · exact h2 (List.mem_singleton.mp h)
    · intro x hx
      rcases List.mem_append.mp hx with h | h
      · exact inv.out_ids x h
      · exact (List.mem_singleton.mp h) ▸ inv.queue_ids current hcur_mem
    · intro x
      have := hfin.deg_eq x
      rw [List.count_nil] at this
      rw [this]
      have : (E.filter (fun e => e.2 == x && !(out.contains e.1) && e.1 != current)) =
          (E.filter (fun e => e.2 == x && !((out ++ [current]).contains e.1))) := by
        refine List.filter_congr fun e he => ?_
        rw [not_contains_append_singleton, Bool.and_assoc]
      rw [this]
      push_cast
      ring
    · intro x hx e he hex
      rcases (hfin.queue_done x hx).1 e he hex with h | h
      · exact List.mem_append.mpr (Or.inl h)
      · exact List.mem_append.mpr (Or.inr (List.mem_singleton.mpr h))
    · intro i hi e he hex
      rw [List.length_append, List.length_singleton] at hi
      rcases Nat.lt_succ_iff_lt_or_eq.mp hi with hlt | heq
      · rw [List.getElem_append_left hlt] at hex
        rw [List.take_append_of_le_length (Nat.le_of_lt hlt)]
        exact inv.out_order i hlt e he hex
      · subst heq
        rw [List.getElem_append_right (le_refl _)] at hex
        simp only [Nat.sub_self, List.getElem_cons_zero] at hex
        rw [List.take_left]
        exact hcurdone e he hex
    · intro x hx hx0
      rcases hfin.zero_in x hx hx0 with h | h | h
      · exact Or.inl (List.mem_append.mpr (Or.inl h))
      · exact Or.inr h
      · exact Or.inl (List.mem_append.mpr (Or.inr (List.mem_singleton.mpr h)))
  · -- the measure decreases
    have hcnt : countNonOut E out =
        (dependents current).length + countNonOut E (out ++ [current]) := by
      rw [countNonOut, countNonOut, ← List.countP_eq_length_filter,
        ← List.countP_eq_length_filter,
        countP_partition (fun e => !(out.contains e.1)) (fun e => e.1 == current) E]
      have h1 : E.countP (fun e => !(out.contains e.1) && e.1 == current) =
          (dependents current).length := by
        rw [hSdef, List.length_map, ← List.countP_eq_length_filter]
        refine List.countP_congr fun e he => ?_
        cases hb : e.1 == current with
        | false => simp
        | true =>
          have hof : (out.contains e.1) = false := by
            rw [beq_iff_eq.mp hb]
            exact hcurcont
          rw [hof]
          simp
      have h2 : E.countP (fun e => !(out.contains e.1) && !(e.1 == current)) =
          E.countP (fun e => !((out ++ [current]).contains e.1)) := by
        refine List.countP_congr fun e he => ?_
        rw [not_contains_append_singleton]
        rfl
      rw [h1, h2]
    rw [hcnt, List.length_cons]
    omega

/-- With enough fuel, Kahn's loop drains its queue and the invariant holds
of the final state with an empty queue. -/
theorem kahnLoop_spec (ids : List String) (E : List (String × String))
    (dependents : String → List String)
    (hE : ∀ e ∈ E, e.1 ∈ ids ∧ e.2 ∈ ids)
    (hdep : ∀ d, dependents d = ((E.filter (fun e => e.1 == d)).map (·.2))) :
    ∀ (fuel : Nat) (deg : String → Int) (queue out : List String),
      KahnInv ids E deg queue out →
      queue.length + countNonOut E out ≤ fuel →
      KahnInv ids E (kahnLoop dependents fuel deg queue out).2 []
        (kahnLoop dependents fuel deg queue out).1 := by
  intro fuel
  induction fuel with
  | zero =>
    intro deg queue out hinv hle
    have hq : queue = [] := List.length_eq_zero.mp (by omega)
    subst hq
    exact hinv
  | succ fuel ih =>
    intro deg queue out hinv hle
    match queue with
    | [] => exact hinv
    | current :: rest =>
      have heq : kahnLoop dependents (fuel + 1) deg (current :: rest) out =
          kahnLoop dependents fuel
            ((dependents current).foldl kahnStep (deg, rest)).1
            ((dependents current).foldl kahnStep (deg, rest)).2
            (out ++ [current]) := rfl
      rw [heq]
      rcases kahnIter ids E dependents hE hdep deg current rest out hinv with
        ⟨hinv2, hmeas⟩
      refine ih _ _ _ hinv2 ?_
      simp only [List.length_cons] at hmeas hle
      omega

/-- The full Kahn run inside `topological_sort` satisfies the loop
invariant with an empty queue. -/
theorem kahnRun_spec (tasks : List Task) :
    KahnInv (taskIds tasks) (edgesOf tasks) (kahnRun tasks).2 []
      (kahnRun tasks).1 := by
  have hE := edgesOf_ends_mem tasks
  have hdep : ∀ d, (buildGraph tasks).2 d =
      (((edgesOf tasks).filter (fun e => e.1 == d)).map (·.2)) :=
    buildGraph_dependents tasks
  have hdeg0 : ∀ x, (buildGraph tasks).1 x =
      (((edgesOf tasks).filter (fun e =>
        e.2 == x && !(([] : List String).contains e.1))).length : Int) := by
    intro x
    rw [buildGraph_deg]
    congr 1
    refine congrArg _ (List.filter_congr fun e he => ?_)
    show (e.2 == x) = (e.2 == x && true)
    rw [Bool.and_true]
  have hinv0 : KahnInv (taskIds tasks) (edgesOf tasks) (buildGraph tasks).1
      ((dictKeys tasks).filter (fun tid => (buildGraph tasks).1 tid == 0)) [] := by
    refine ⟨List.nodup_nil, (nodup_pyKeys _).filter _, ?_, ?_, ?_, hdeg0, ?_, ?_, ?_⟩
    · intro x _
      exact List.not_mem_nil x
    · intro x hx
      exact absurd hx (List.not_mem_nil x)
    · intro x hx
      exact (mem_pyKeys _ _).mp (List.mem_of_mem_filter hx)
    · intro x hx e he hex
      have hcond := List.of_mem_filter hx
      have hx0 : (buildGraph tasks).1 x = 0 := beq_iff_eq.mp hcond
      rw [buildGraph_deg] at hx0
      have hlen0 : ((edgesOf tasks).filter (fun e => e.2 == x)).length = 0 := by
        exact_mod_cast hx0
      rw [List.length_eq_zero] at hlen0
      have : e ∈ (edgesOf tasks).filter (fun e => e.2 == x) :=
        List.mem_filter.mpr ⟨he, beq_iff_eq.mpr hex⟩
      rw [hlen0] at this
      exact absurd this (List.not_mem_nil e)
    · intro i hi
      exact absurd hi (by simp)
    · intro x hx hx0
      refine Or.inr (List.mem_filter.mpr ⟨(mem_pyKeys _ _).mpr hx, ?_⟩)
      exact beq_iff_eq.mpr hx0
  have hfuel : ((dictKeys tasks).filter
        (fun tid => (buildGraph tasks).1 tid == 0)).length +
      countNonOut (edgesOf tasks) [] ≤ kahnFuel tasks := by
    have h1 : ((dictKeys tasks).filter
        (fun tid => (buildGraph tasks).1 tid == 0)).length ≤ tasks.length := by
      calc ((dictKeys tasks).filter _).length
          ≤ (dictKeys tasks).length := List.length_filter_le _ _
        _ ≤ (taskIds tasks).length := length_pyKeys_le _
        _ = tasks.length := by rw [taskIds, List.length_map]
    have h2 : countNonOut (edgesOf tasks) [] ≤
        (tasks.map (fun t => t.deps.length)).sum :=
      (List.length_filter_le _ _).trans (length_edgesOf_le tasks)
    rw [kahnFuel]
    omega
  exact kahnLoop_spec (taskIds tasks) (edgesOf tasks) (buildGraph tasks).2 hE hdep
    (kahnFuel tasks) (buildGraph tasks).1
    ((dictKeys tasks).filter (fun tid => (buildGraph tasks).1 tid == 0)) []
    hinv0 hfuel

/-- After the queue drains, every popped id has in-degree zero. -/
theorem kahnInv_deg_zero_of_out (ids : List String) (E : List (String × String))
    (deg : String → Int) (out : List String)
    (inv : KahnInv ids E deg [] out) (x : String) (hx : x ∈ out) : deg x = 0 := by
  have hclosed := kahnInv_out_closed ids E deg [] out inv
  rw [inv.deg_eq]
  have hnil : E.filter (fun e => e.2 == x && !(out.contains e.1)) = [] := by
    rw [List.filter_eq_nil_iff]
    intro e he hc
    rw [Bool.and_eq_true] at hc
    have h2 : e.1 ∈ out := hclosed x hx e he (beq_iff_eq.mp hc.1)
    rw [contains_eq_true _ _ h2] at hc
    exact Bool.false_ne_true (by simpa using hc.2)
  rw [hnil]
  rfl

/-- After the queue drains, every unpopped id has positive in-degree. -/
theorem kahnInv_deg_pos_of_not_out (ids : List String)
    (E : List (String × String)) (deg : String → Int) (out : List String)
    (inv : KahnInv ids E deg [] out) (x : String) (hxids : x ∈ ids)
    (hxnot : x ∉ out) : 0 < deg x := by
  have hnn : (0 : Int) ≤ deg x := by
    rw [inv.deg_eq]
    exact Int.natCast_nonneg _
  have hne : deg x ≠ 0 := by
    intro h0
    rcases inv.zero_in x hxids h0 with h | h
    · exact hxnot h
    · exact absurd h (List.not_mem_nil x)
  omega

/-- A positive in-degree exhibits an unpopped in-edge. -/
theorem kahnInv_exists_edge_of_deg_pos (ids : List String)
    (E : List (String × String)) (deg : String → Int) (queue out : List String)
    (inv : KahnInv ids E deg queue out) (x : String) (h : 0 < deg x) :
    ∃ e ∈ E, e.2 = x ∧ e.1 ∉ out := by
  rw [inv.deg_eq] at h
  have hlen : 0 < (E.filter (fun e => e.2 == x && !(out.contains e.1))).length := by
    exact_mod_cast h
  have hne : E.filter (fun e => e.2 == x && !(out.contains e.1)) ≠ [] := by
    intro hnil
    rw [hnil] at hlen
    exact absurd hlen (lt_irrefl 0)
  obtain ⟨e, he⟩ := List.exists_mem_of_ne_nil _ hne
  rcases List.mem_filter.mp he with ⟨heE, hcond⟩
  rw [Bool.and_eq_true] at hcond
  refine ⟨e, heE, beq_iff_eq.mp hcond.1, ?_⟩
  have : (out.contains e.1) = false := by
    cases hb : out.contains e.1 with
    | false => rfl
    | true =>
      rw [hb] at hcond
      exact absurd hcond.2 (by decide)
  exact (contains_eq_false _ _).mp this

/-- `find?` returns the designated element when it is the unique match. -/
theorem find?_eq_some_of_unique {α : Type} (p : α → Bool) (t : α) :
    ∀ l : List α, p t = true → t ∈ l → (∀ u ∈ l, p u = true → u = t) →
      l.find? p = some t := by
  intro l
  induction l with
  | nil =>
    intro _ h _
    exact absurd h (List.not_mem_nil t)
  | cons a l ih =>
    intro hpt hmem huniq
    cases hpa : p a with
    | true =>
      rw [List.find?_cons_of_pos _ hpa]
      exact congrArg some (huniq a (List.mem_cons_self _ _) hpa)
    | false =>
      rw [List.find?_cons_of_neg _ (by simp [hpa])]
      have hmem2 : t ∈ l := by
        rcases List.mem_cons.mp hmem with rfl | h
        · rw [hpt] at hpa
          exact absurd hpa (by decide)
        · exact h
      exact ih hpt hmem2 (fun u hu hpu => huniq u (List.mem_cons_of_mem _ hu) hpu)

/-- Whatever `task_map` returns is a task of the list bearing the looked-up
id. -/
theorem taskMapGet_some (tasks : List Task) (tid : String) (t : Task)
    (h : taskMapGet tasks tid = some t) : t ∈ tasks ∧ t.id = tid := by
  rw [taskMapGet] at h
  have h1 := List.find?_some h
  have h2 := List.mem_of_find?_eq_some h
  exact ⟨List.mem_reverse.mp h2, beq_iff_eq.mp h1⟩

/-- With unique ids, `task_map` lookup of a task's own id returns that
task. -/
theorem taskMapGet_self (tasks : List Task) (hnd : (taskIds tasks).Nodup)
    (t : Task) (ht : t ∈ tasks) : taskMapGet tasks t.id = some t := by
  rw [taskMapGet]
  refine find?_eq_some_of_unique _ t _ (by simp) (List.mem_reverse.mpr ht) ?_
  intro u hu hpu
  have hu2 : u ∈ tasks := List.mem_reverse.mp hu
  have hid : u.id = t.id := beq_iff_eq.mp hpu
  exact List.inj_on_of_nodup_map (by rwa [taskIds] at hnd) hu2 ht hid

/-- Mapping ids over the looked-up tasks recovers the id list. -/
theorem filterMap_lookup_map_id (tasks : List Task) :
    ∀ l : List String, (∀ tid ∈ l, ∃ t, taskMapGet tasks tid = some t) →
      ((l.filterMap (taskMapGet tasks)).map (·.id)) = l := by
  intro l
  induction l with
  | nil =>
    intro _
    rfl
  | cons tid l ih =>
    intro hall
    obtain ⟨t, ht⟩ := hall tid (List.mem_cons_self _ _)
    rw [List.filterMap_cons_some ht, List.map_cons,
      (taskMapGet_some tasks tid t ht).2,
      ih (fun u hu => hall u (List.mem_cons_of_mem _ hu))]

/-- A pointwise-identity `filterMap` is the identity. -/
theorem filterMap_eq_self_of_some {α : Type} (g : α → Option α) :
    ∀ l : List α, (∀ a ∈ l, g a = some a) → l.filterMap g = l := by
  intro l
  induction l with
  | nil =>
    intro _
    rfl
  | cons a l ih =>
    intro hall
    rw [List.filterMap_cons_some (hall a (List.mem_cons_self _ _)),
      ih (fun u hu => hall u (List.mem_cons_of_mem _ hu))]

/-- Looking every id back up yields the original task list. -/
theorem filterMap_taskIds (tasks : List Task) (hnd : (taskIds tasks).Nodup) :
    (taskIds tasks).filterMap (taskMapGet tasks) = tasks := by
  rw [taskIds, List.filterMap_map]
  exact filterMap_eq_self_of_some _ tasks
    (fun t ht => taskMapGet_self tasks hnd t ht)

/-- Claim C1: on any task list with unique ids, fully resolving deps, and
an acyclic dependency graph, `topological_sort` succeeds; its output has
the length of the input, is a permutation of the input tasks, and places
every task after the tasks holding the ids it depends on. -/
theorem c1_topological_sort_acyclic (tasks : List Task)
    (hnd : (taskIds tasks).Nodup)
    (hres : ∀ t ∈ tasks, ∀ d ∈ t.deps, d ∈ taskIds tasks)
    (hacy : Acyclic tasks) :
    ∃ res, topological_sort tasks = .ok res ∧
      res.length = tasks.length ∧ res.Perm tasks ∧
      ∀ i : Nat, ∀ hi : i < res.length, ∀ d ∈ (res.get ⟨i, hi⟩).deps,
        ∃ j : Nat, ∃ hj : j < res.length, j < i ∧ (res.get ⟨j, hj⟩).id = d := by
  obtain ⟨f, hf⟩ := hacy
  have inv := kahnRun_spec tasks
  -- every id is popped
  have hall : ∀ x ∈ taskIds tasks, x ∈ (kahnRun tasks).1 := by
    by_contra hcon
    push_neg at hcon
    obtain ⟨x0, hx0ids, hx0not⟩ := hcon
    have hx0L : x0 ∈ (taskIds tasks).filter
        (fun x => !((kahnRun tasks).1.contains x)) := by
      refine List.mem_filter.mpr ⟨hx0ids, ?_⟩
      rw [(contains_eq_false _ x0).mpr hx0not]
      rfl
    cases ham : ((taskIds tasks).filter
        (fun x => !((kahnRun tasks).1.contains x))).argmin f with
    | none => exact List.ne_nil_of_mem hx0L (List.argmin_eq_none.mp ham)
    | some m =>
      have hmL := List.argmin_mem ham
      rcases List.mem_filter.mp hmL with ⟨hmids, hmcond⟩
      have hmnot : m ∉ (kahnRun tasks).1 := by
        intro hmem
        rw [contains_eq_true _ _ hmem] at hmcond
        exact absurd hmcond (by decide)
      have hpos := kahnInv_deg_pos_of_not_out _ _ _ _ inv m hmids hmnot
      obtain ⟨e, he, he2, he1⟩ :=
        kahnInv_exists_edge_of_deg_pos _ _ _ _ _ inv m hpos
      have he1ids : e.1 ∈ taskIds tasks := (edgesOf_ends_mem tasks e he).1
      have he1L : e.1 ∈ (taskIds tasks).filter
          (fun x => !((kahnRun tasks).1.contains x)) := by
        refine List.mem_filter.mpr ⟨he1ids, ?_⟩
        rw [(contains_eq_false _ _).mpr he1]
        rfl
      have hmin : f m ≤ f e.1 := List.le_of_mem_argmin he1L ham
      have hlt : f e.1 < f e.2 := hf e he
      rw [he2] at hlt
      omega
  have hperm_out : (kahnRun tasks).1.Perm (taskIds tasks) :=
    (List.perm_ext_iff_of_nodup inv.nodup_out hnd).mpr
      (fun a => ⟨fun h => inv.out_ids a h, fun h => hall a h⟩)
  have hlen_out : (kahnRun tasks).1.length = tasks.length := by
    rw [hperm_out.length_eq, taskIds, List.length_map]
  have htopo : topological_sort tasks =
      if (kahnRun tasks).1.length = tasks.length
      then Except.ok ((kahnRun tasks).1.filterMap (taskMapGet tasks))
      else Except.error ((dictKeys tasks).filter
        (fun tid => decide (0 < (kahnRun tasks).2 tid))) := rfl
  have hsort : topological_sort tasks =
      Except.ok ((kahnRun tasks).1.filterMap (taskMapGet tasks)) := by
    rw [htopo, if_pos hlen_out]
  have hlook : ∀ tid ∈ (kahnRun tasks).1, ∃ t, taskMapGet tasks tid = some t := by
    intro tid htid
    have hmem : tid ∈ tasks.map (·.id) := by
      have := inv.out_ids tid htid
      rwa [taskIds] at this
    rcases List.mem_map.mp hmem with ⟨t, ht, rfl⟩
    exact ⟨t, taskMapGet_self tasks hnd t ht⟩
  have hmapid : (((kahnRun tasks).1.filterMap (taskMapGet tasks)).map (·.id)) =
      (kahnRun tasks).1 := filterMap_lookup_map_id tasks _ hlook
  have hlen_res : ((kahnRun tasks).1.filterMap (taskMapGet tasks)).length =
      (kahnRun tasks).1.length := by
    have := congrArg List.length hmapid
    rwa [List.length_map] at this
  have hperm_res : ((kahnRun tasks).1.filterMap (taskMapGet tasks)).Perm tasks := by
    have h1 := List.Perm.filterMap (taskMapGet tasks) hperm_out
    rwa [filterMap_taskIds tasks hnd] at h1
  refine ⟨(kahnRun tasks).1.filterMap (taskMapGet tasks), hsort,
    hlen_res.trans hlen_out, hperm_res, ?_⟩
  intro i hi d hd
  have hi2 : i < (kahnRun tasks).1.length := by
    rw [← hlen_res]
    exact hi
  have hti_mem : ((kahnRun tasks).1.filterMap (taskMapGet tasks)).get ⟨i, hi⟩ ∈
      tasks := hperm_res.subset (List.get_mem _ _ _)
  have hdids : d ∈ taskIds tasks := hres _ hti_mem d hd
  have hedge : (d, (((kahnRun tasks).1.filterMap (taskMapGet tasks)).get
      ⟨i, hi⟩).id) ∈ edgesOf tasks :=
    (mem_edgesOf_iff tasks d _).mpr ⟨_, hti_mem, rfl, hd, hdids⟩
  have hout_i : (kahnRun tasks).1[i] =
      (((kahnRun tasks).1.filterMap (taskMapGet tasks)).get ⟨i, hi⟩).id := by
    rw [List.getElem_of_eq hmapid.symm hi2, List.getElem_map]
    simp [List.get_eq_getElem]
  have htake := inv.out_order i hi2 _ hedge hout_i.symm
  obtain ⟨j, hj, hje⟩ := List.mem_iff_getElem.mp htake
  have hjlti : j < i := by
    rw [List.length_take] at hj
    omega
  have hj2 : j < (kahnRun tasks).1.length := by
    rw [List.length_take] at hj
    omega
  have hjres : j < ((kahnRun tasks).1.filterMap (taskMapGet tasks)).length := by
    omega
  refine ⟨j, hjres, hjlti, ?_⟩
  have hout_j : (kahnRun tasks).1[j] =
      (((kahnRun tasks).1.filterMap (taskMapGet tasks)).get ⟨j, hjres⟩).id := by
    rw [List.getElem_of_eq hmapid.symm hj2, List.getElem_map]
    simp [List.get_eq_getElem]
  rw [← hout_j]
  rw [List.getElem_take] at hje
  exact hje

/-- Witness for `c1_topological_sort_acyclic` on the concrete acyclic
chain a ← b ← c. -/
theorem c1_topological_sort_acyclic_witness :
    (taskIds [readyA, readyB, readyC]).Nodup ∧
    (∀ t ∈ [readyA, readyB, readyC], ∀ d ∈ t.deps,
      d ∈ taskIds [readyA, readyB, readyC]) ∧
    Acyclic [readyA, readyB, readyC] ∧
    (∃ res, topological_sort [readyA, readyB, readyC] = Except.ok res ∧
      res.Perm [readyA, readyB, readyC]) :=
  ⟨by decide, by decide, ⟨readyRank, by decide⟩,
   match c1_topological_sort_acyclic [readyA, readyB, readyC] (by decide)
       (by decide) ⟨readyRank, by decide⟩ with
   | ⟨res, hok, _, hperm, _⟩ => ⟨res, hok, hperm⟩⟩

/-- Every vertex of a chain has a predecessor among the chain vertices. -/
theorem chain_exists_pred {r : String → String → Prop} :
    ∀ (x : String) (c : List String), List.Chain r x c →
      ∀ y ∈ c, ∃ p ∈ x :: c, r p y := by
  intro x c
  induction c generalizing x with
  | nil =>
    intro _ y hy
    exact absurd hy (List.not_mem_nil y)
  | cons a c ih =>
    intro hch y hy
    rcases List.chain_cons.mp hch with ⟨hra, hch2⟩
    rcases List.mem_cons.mp hy with rfl | hy2
    · exact ⟨x, List.mem_cons_self _ _, hra⟩
    · rcases ih a hch2 y hy2 with ⟨p, hp, hrp⟩
      exact ⟨p, List.mem_cons_of_mem _ hp, hrp⟩

/-- Every member of a dependency cycle has an in-edge from a member. -/
theorem cycle_pred (tasks : List Task) (x : String) (c : List String)
    (hcyc : IsDepCycle tasks x c) :
    ∀ y ∈ x :: c, ∃ p ∈ x :: c, (p, y) ∈ edgesOf tasks := by
  rcases hcyc with ⟨hch, hlast⟩
  have hcne : c ≠ [] := by
    intro h
    rw [h] at hlast
    exact Option.noConfusion hlast
  have hxc : x ∈ c := by
    rw [List.getLast?_eq_getLast c hcne] at hlast
    have hx := Option.some.inj hlast
    rw [← hx]
    exact List.getLast_mem hcne
  intro y hy
  rcases List.mem_cons.mp hy with rfl | hy2
  · exact chain_exists_pred y c hch y hxc
  · exact chain_exists_pred x c hch y hy2

/-- No member of a dependency cycle is ever popped by Kahn's loop. -/
theorem cycle_not_in_out (tasks : List Task) (x : String) (c : List String)
    (hcyc : IsDepCycle tasks x c) :
    ∀ y ∈ x :: c, y ∉ (kahnRun tasks).1 := by
  have inv := kahnRun_spec tasks
  have hpred := cycle_pred tasks x c hcyc
  have hidx : ∀ i, ∀ h : i < (kahnRun tasks).1.length,
      (kahnRun tasks).1[i] ∉ x :: c := by
    intro i
    induction i using Nat.strong_induction_on with
    | _ i ihs =>
      intro h hmem
      obtain ⟨p, hpmem, hpe⟩ := hpred _ hmem
      have htake := inv.out_order i h (p, (kahnRun tasks).1[i]) hpe rfl
      obtain ⟨j, hj, hje⟩ := List.mem_iff_getElem.mp htake
      have hjlt : j < i := by
        rw [List.length_take] at hj
        omega
      have hjlen : j < (kahnRun tasks).1.length := by
        rw [List.length_take] at hj
        omega
      rw [List.getElem_take] at hje
      exact ihs j hjlt hjlen (hje ▸ hpmem)
  intro y hy hmem
  obtain ⟨i, hi, he⟩ := List.mem_iff_getElem.mp hmem
  exact hidx i hi (he ▸ hy)

/-- Every member of a dependency cycle is a task id. -/
theorem cycle_mem_ids (tasks : List Task) (x : String) (c : List String)
    (hcyc : IsDepCycle tasks x c) : ∀ y ∈ x :: c, y ∈ taskIds tasks := by
  intro y hy
  obtain ⟨p, -, hpe⟩ := cycle_pred tasks x c hcyc y hy
  exact (edgesOf_ends_mem tasks (p, y) hpe).2

/-- Claim C2: on any task list whose dependency graph contains a cycle,
`topological_sort` raises (returns `Except.error`, no partial order); the
error lists exactly the ids whose in-degree never reached zero — the ids
the run never popped — and all cycle members are among them. -/
theorem c2_topological_sort_cycle (tasks : List Task) (x : String)
    (c : List String) (hcyc : IsDepCycle tasks x c) :
    ∃ errs, topological_sort tasks = .error errs ∧
      errs = (dictKeys tasks).filter
        (fun tid => !((kahnRun tasks).1.contains tid)) ∧
      ∀ y ∈ x :: c, y ∈ errs := by
  have inv := kahnRun_spec tasks
  have hnotout := cycle_not_in_out tasks x c hcyc
  have hids := cycle_mem_ids tasks x c hcyc
  have hxids : x ∈ taskIds tasks := hids x (List.mem_cons_self _ _)
  have hxnot : x ∉ (kahnRun tasks).1 := hnotout x (List.mem_cons_self _ _)
  have hdk_nodup : (dictKeys tasks).Nodup := nodup_pyKeys _
  have hdx : x ∈ dictKeys tasks := (mem_pyKeys _ _).mpr hxids
  have hsubset : (kahnRun tasks).1.toFinset ⊆ (dictKeys tasks).toFinset.erase x := by
    intro z hz
    rw [List.mem_toFinset] at hz
    refine Finset.mem_erase.mpr ⟨fun hzx => hxnot (hzx ▸ hz), ?_⟩
    rw [List.mem_toFinset]
    exact (mem_pyKeys _ _).mpr (inv.out_ids z hz)
  have hcard : (kahnRun tasks).1.length ≤ (dictKeys tasks).length - 1 := by
    have h1 := List.toFinset_card_of_nodup inv.nodup_out
    have h2 := List.toFinset_card_of_nodup hdk_nodup
    have h3 := Finset.card_le_card hsubset
    rw [Finset.card_erase_of_mem (List.mem_toFinset.mpr hdx)] at h3
    omega
  have hdkpos : 0 < (dictKeys tasks).length :=
    List.length_pos.mpr (List.ne_nil_of_mem hdx)
  have hdkle : (dictKeys tasks).length ≤ tasks.length := by
    have := length_pyKeys_le (taskIds tasks)
    rwa [taskIds, List.length_map] at this
  have hne : ¬((kahnRun tasks).1.length = tasks.length) := by omega
  have htopo : topological_sort tasks =
      if (kahnRun tasks).1.length = tasks.length
      then Except.ok ((kahnRun tasks).1.filterMap (taskMapGet tasks))
      else Except.error ((dictKeys tasks).filter
        (fun tid => decide (0 < (kahnRun tasks).2 tid))) := rfl
  have herrs_eq : (dictKeys tasks).filter
        (fun tid => decide (0 < (kahnRun tasks).2 tid)) =
      (dictKeys tasks).filter
        (fun tid => !((kahnRun tasks).1.contains tid)) := by
    refine List.filter_congr fun tid htid => ?_
    have htid_ids : tid ∈ taskIds tasks := (mem_pyKeys _ _).mp htid
    by_cases hmem : tid ∈ (kahnRun tasks).1
    · rw [contains_eq_true _ _ hmem,
        kahnInv_deg_zero_of_out _ _ _ _ inv tid hmem]
      rfl
    · rw [(contains_eq_false _ _).mpr hmem,
        decide_eq_true (kahnInv_deg_pos_of_not_out _ _ _ _ inv tid htid_ids hmem)]
      rfl
  refine ⟨_, by rw [htopo, if_neg hne], herrs_eq, ?_⟩
  intro y hy
  rw [herrs_eq]
  refine List.mem_filter.mpr ⟨(mem_pyKeys _ _).mpr (hids y hy), ?_⟩
  rw [(contains_eq_false _ _).mpr (hnotout y hy)]
  rfl

/-- Witness for `c2_topological_sort_cycle` on the concrete two-cycle
u ↔ v. -/
theorem c2_topological_sort_cycle_witness :
    IsDepCycle [cycU, cycV] "u" ["v", "u"] ∧
    (∃ errs, topological_sort [cycU, cycV] = Except.error errs ∧
      "u" ∈ errs ∧ "v" ∈ errs) :=
  ⟨⟨List.Chain.cons (by decide) (List.Chain.cons (by decide) List.Chain.nil), rfl⟩,
   match c2_topological_sort_cycle [cycU, cycV] "u" ["v", "u"]
       ⟨List.Chain.cons (by decide) (List.Chain.cons (by decide) List.Chain.nil), rfl⟩ with
   | ⟨errs, herr, _, hmem⟩ =>
     ⟨errs, herr, hmem "u" (by decide), hmem "v" (by decide)⟩⟩

end SwissCheese
